import Mathlib

/-!
Verification development for the ab_poller repository (an Allen-Bradley PLC
toolkit).  The Python sources are shallowly embedded here:

* RawType and raw definitions model the protocol values that pycomm3 hands
  to the toolkit (a data_type field that is a plain string, an object
  carrying a name attribute, or a descriptor dict with optional name and
  internal_tags entries).
* TagNode models the JSON-serializable output of _parse_structure_def in
  toolkit.py (a plain type-name string, or a dict with _data_type_ and
  members entries).
* The per-tag discovery loops of toolkit.connect_and_discover and
  discovery_tool.discover_tags, the case-insensitive path resolver of
  plc_toolkit_consolidated._find_case_insensitive_tag, the flat export of
  export_tool.generate_excel_flat, the bounded monitoring history of
  monitor_tag, and the SQLite upsert of DatabaseManager.update_plc_data are
  each embedded as executable Lean functions.

Python string primitives used by the sources (startswith, lower, split,
join, string comparison) are modelled by executable functions on the
character lists underlying Lean strings, so that every definition can be
evaluated on concrete inputs inside proofs.
-/

/-- Models Python str.startswith: the characters of p are a (not
necessarily proper) initial segment of the characters of s. -/
def strStartsWith (s p : String) : Bool := p.data.isPrefixOf s.data

/-- Models Python str.lower on the ASCII tag and member names handled by
the toolkit: each character is lowercased individually. -/
def strLower (s : String) : String := String.mk (s.data.map Char.toLower)

/-- Lexicographic comparison of character lists by code point, as Python
compares strings when sorted() orders dict items. -/
def charListLt : List Char → List Char → Bool
  | [], [] => false
  | [], _ :: _ => true
  | _ :: _, [] => false
  | a :: as, b :: bs =>
      if a.toNat < b.toNat then true
      else if b.toNat < a.toNat then false
      else charListLt as bs

/-- Models the Python string comparison s < t (code-point lexicographic). -/
def pyStrLt (s t : String) : Bool := charListLt s.data t.data

/-- Splits a character list at every dot, as Python str.split does for the
separator used by the path resolver. -/
def splitDotChars : List Char → List (List Char)
  | [] => [[]]
  | c :: rest =>
      match splitDotChars rest with
      | [] => [[c]]
      | h :: t => if c = '.' then [] :: h :: t else (c :: h) :: t

/-- Models Python s.split for the dot separator. -/
def strSplitDot (s : String) : List String := (splitDotChars s.data).map String.mk

/-- Models the Python join of path segments with a dot separator. -/
def strJoinDot : List String → String
  | [] => ""
  | [s] => s
  | s :: rest => s ++ "." ++ strJoinDot rest

/-- A single apostrophe, used when rendering the Python str() form of a
dict. -/
def apos : String := String.mk [Char.ofNat 39]

/-- A value that can appear in the data_type position of a raw tag
definition, as inspected by get_type_name in toolkit.py (lines 178-183):
a plain string, an object bearing a name attribute, or a descriptor dict
with an optional name entry and an optional internal_tags dict mapping
member names to member definitions.  A raw tag definition itself is only
ever read at its data_type key, so it is modelled by that entry alone:
an absent key is none. -/
inductive RawType where
  | rstr : String → RawType
  | robj : String → RawType
  | rdict : Option String → Option (List (String × Option RawType)) → RawType

/-- Canonical resolved node: _parse_structure_def returns either a plain
type-name string (leaf) or a dict with a _data_type_ string and a members
dict (structured). -/
inductive TagNode where
  | leaf : String → TagNode
  | structured : String → List (String × TagNode) → TagNode

/-- Embeds get_type_name (toolkit.py lines 178-183): a dict yields its name
entry (default STRUCT), an attribute-bearing object yields its name, and
anything else yields its string form (the string itself for a string). -/
def get_type_name : RawType → String
  | RawType.rdict nm _ => nm.getD "STRUCT"
  | RawType.robj nm => nm
  | RawType.rstr s => s

mutual

/-- Embeds _parse_structure_def (toolkit.py lines 174-201).  The member
collection is located at data_type.internal_tags when data_type is a dict;
a falsy member collection (absent key, non-dict data_type, or empty dict)
yields a leaf carrying get_type_name of the data_type (default Unknown when
the key is absent); otherwise a structured node is built whose members are
the recursively parsed non-dunder members. -/
def parseStructureDef : Option RawType → TagNode
  | some (RawType.rdict nm (some (m :: ms))) =>
      TagNode.structured (get_type_name (RawType.rdict nm (some (m :: ms))))
        (parseMembers (m :: ms))
  | some (RawType.rdict nm (some [])) =>
      TagNode.leaf (get_type_name (RawType.rdict nm (some [])))
  | some (RawType.rdict nm none) =>
      TagNode.leaf (get_type_name (RawType.rdict nm none))
  | some (RawType.robj nm) => TagNode.leaf (get_type_name (RawType.robj nm))
  | some (RawType.rstr s) => TagNode.leaf (get_type_name (RawType.rstr s))
  | none => TagNode.leaf "Unknown"

/-- Embeds the member loop of _parse_structure_def (toolkit.py lines
197-199): members whose name starts with a double underscore are skipped;
the rest are parsed recursively in order. -/
def parseMembers : List (String × Option RawType) → List (String × TagNode)
  | [] => []
  | (n, md) :: rest =>
      if strStartsWith n "__" then parseMembers rest
      else (n, parseStructureDef md) :: parseMembers rest

end

/-- Models Python str() applied to a type-descriptor dict.  The fallback in
toolkit.py line 247 reaches this case when the summary data_type is a dict:
a dict carries no name attribute, so str(dt) is stored.  Python renders a
dict in brace form with repr-quoted entries; the model renders the name
entry it tracks and elides the remaining dict text, which no theorem
depends on — the development only uses that this brace-form rendering, not
the bare display name, is what gets stored. -/
def pyStrDict (nm : Option String) : String :=
  match nm with
  | some s => "\x7b" ++ (apos ++ "name" ++ apos ++ ": " ++ apos ++ s ++ apos ++ "\x7d")
  | none => "\x7b\x7d"

/-- Embeds the per-tag fallback of connect_and_discover (toolkit.py lines
242-247): dt = summary.get with default the string UNKNOWN; an object with
a name attribute yields dt.name, anything else yields str(dt) — the string
itself for a string, the brace rendering for a dict. -/
def fallbackTypeName : Option RawType → String
  | none => "UNKNOWN"
  | some (RawType.robj nm) => nm
  | some (RawType.rstr s) => s
  | some (RawType.rdict nm _) => pyStrDict nm

/-- One entry of the lightweight tag list returned by plc.get_tag_list:
only the tag_name and data_type keys are ever read (either may be
absent). -/
structure TagSummary where
  tag_name : Option String
  data_type : Option RawType

/-- The top-level name filter of the discovery loops (toolkit.py line 237,
discovery_tool.py line 177): a falsy (empty) name, a dunder name, or a
System-scoped name is skipped. -/
def reservedTop (n : String) : Bool :=
  n.isEmpty || strStartsWith n "__" || strStartsWith n "System:"

/-- Python dict assignment on an insertion-ordered dict: replaces the value
in place if the key exists, else appends the binding. -/
def dictInsert {α : Type} : List (String × α) → String → α → List (String × α)
  | [], k, v => [(k, v)]
  | (k1, v1) :: rest, k, v =>
      if k1 = k then (k, v) :: rest else (k1, v1) :: dictInsert rest k v

/-- Python dict lookup: the value bound to the key, if any. -/
def dictLookup {α : Type} (l : List (String × α)) (k : String) : Option α :=
  (l.find? (fun p => p.1 = k)).map (fun p => p.2)

/-- The write that one iteration of the connect_and_discover per-tag loop
(toolkit.py lines 235-247) performs, as an optional key-value pair: none
when the summary has no usable name or the name is reserved; otherwise the
parsed definition when get_tag_info succeeded, and the fallback shallow-
type leaf when it threw. -/
def tagItemKV (it : TagSummary × Except Unit (Option RawType)) :
    Option (String × TagNode) :=
  match it.1.tag_name with
  | none => none
  | some name =>
      if reservedTop name then none
      else some (name,
        match it.2 with
        | Except.ok d => parseStructureDef d
        | Except.error _ => TagNode.leaf (fallbackTypeName it.1.data_type))

/-- One step of the per-tag loop: apply the write, if any, to the
accumulated parsed_tags dict. -/
def tagStep (acc : List (String × TagNode))
    (it : TagSummary × Except Unit (Option RawType)) : List (String × TagNode) :=
  match tagItemKV it with
  | none => acc
  | some (k, v) => dictInsert acc k v

/-- Embeds the per-tag loop of connect_and_discover (toolkit.py lines
231-247): each summary from the merged scope list is paired with the
outcome of its plc.get_tag_info call, and the loop folds the writes into
the parsed_tags dict, starting empty. -/
def parseTagsLoop (items : List (TagSummary × Except Unit (Option RawType))) :
    List (String × TagNode) :=
  items.foldl tagStep []

/-- The last write a list of loop iterations performs at a given key, later
iterations taking precedence; a specification device used to state which
iteration determines the final dict entry. -/
def lastWriteAt (items : List (TagSummary × Except Unit (Option RawType)))
    (k : String) : Option TagNode :=
  match items with
  | [] => none
  | it :: rest =>
      match lastWriteAt rest k with
      | some v => some v
      | none =>
          match tagItemKV it with
          | some (k1, v) => if k1 = k then some v else none
          | none => none

mutual

/-- Bool checker: some member name at some depth of the node starts with a
double underscore. -/
def TagNode.hasDunderMember : TagNode → Bool
  | TagNode.leaf _ => false
  | TagNode.structured _ ms => hasDunderMemberList ms

/-- List companion of TagNode.hasDunderMember. -/
def hasDunderMemberList : List (String × TagNode) → Bool
  | [] => false
  | (n, c) :: rest =>
      strStartsWith n "__" || TagNode.hasDunderMember c || hasDunderMemberList rest

end

mutual

/-- Bool checker: some member name at some depth of the node starts with a
double underscore or with the System scope marker. -/
def TagNode.hasReservedMember : TagNode → Bool
  | TagNode.leaf _ => false
  | TagNode.structured _ ms => hasReservedMemberList ms

/-- List companion of TagNode.hasReservedMember. -/
def hasReservedMemberList : List (String × TagNode) → Bool
  | [] => false
  | (n, c) :: rest =>
      strStartsWith n "__" || strStartsWith n "System:"
        || TagNode.hasReservedMember c || hasReservedMemberList rest

end

mutual

/-- All data-type strings stored in a resolved node: the leaf string, or
the _data_type_ entry followed by the members' strings. -/
def TagNode.collectTypes : TagNode → List String
  | TagNode.leaf s => [s]
  | TagNode.structured t ms => t :: collectTypesList ms

/-- List companion of TagNode.collectTypes. -/
def collectTypesList : List (String × TagNode) → List String
  | [] => []
  | (_, c) :: rest => TagNode.collectTypes c ++ collectTypesList rest

end

/-- A type descriptor occurs in a raw definition: it is the data_type value
itself, or occurs in the definition of one of the members nested inside a
dict-valued data_type. -/
inductive RawOccurs : RawType → Option RawType → Prop
  | here (t : RawType) : RawOccurs t (some t)
  | member {t : RawType} {nm : Option String}
      {l : List (String × Option RawType)} {n : String} {md : Option RawType} :
      (n, md) ∈ l → RawOccurs t md →
      RawOccurs t (some (RawType.rdict nm (some l)))

/-- One entry of a program-scoped tag list.  The prefixing loop of
discovery_tool.py (lines 153-154) indexes the tag_name key directly, so a
program summary that reaches the prefixing step carries a name; a summary
without one would raise and fail that scope, which the per-scope error
outcome of the oracle already covers. -/
structure ProgTag where
  ptag_name : String
  pdata_type : Option RawType

/-- A value stored in the discovery tool's tags dict: the parsed definition
when get_tag_info succeeded, or the raw summary data_type stored unchanged
by the fallback (discovery_tool.py line 187; the UNKNOWN default stands in
when the summary has no data_type key). -/
inductive DiscVal where
  | parsed : TagNode → DiscVal
  | rawFallback : RawType → DiscVal

/-- Bool checker: the stored discovery value is a raw protocol descriptor
object (a dict or an attribute-bearing object) rather than a plain string
or a parsed node. -/
def DiscVal.isDescriptorObject : DiscVal → Bool
  | DiscVal.rawFallback (RawType.rdict _ _) => true
  | DiscVal.rawFallback (RawType.robj _) => true
  | _ => false

/-- Prefixes a program-scoped summary name, as discovery_tool.py line 154
rewrites tag_name in place. -/
def progToSummary (p : String) (t : ProgTag) : TagSummary :=
  ⟨some ("Program:" ++ p ++ "." ++ t.ptag_name), t.pdata_type⟩

/-- Embeds the per-program listing loop of discover_tags (discovery_tool.py
lines 149-161): each program scope either contributes its prefixed
summaries or, when get_tag_list for it throws, contributes nothing and is
recorded among the failed scopes. -/
def gatherPrograms (f : String → Except Unit (List ProgTag)) :
    List String → List TagSummary × List String
  | [] => ([], [])
  | p :: rest =>
      let r := gatherPrograms f rest
      match f p with
      | Except.ok l => (l.map (progToSummary p) ++ r.1, r.2)
      | Except.error _ => (r.1, ("Program:" ++ p) :: r.2)

/-- The protocol oracle for one discovery run: the controller-scope
listing, the PROGRAM read (a list of program names, or a throw, with a
falsy value modelled as the empty list), the per-program listing, and the
per-tag definition fetch. -/
structure DiscoverInput where
  controllerScope : Except Unit (List TagSummary)
  programsList : Except Unit (List String)
  programScope : String → Except Unit (List ProgTag)
  tagInfo : String → Except Unit (Option RawType)

/-- Embeds the scope-enumeration phase of discover_tags (discovery_tool.py
lines 119-164): the controller scope contributes its summaries or is
recorded as the failed Controller Scope; a failed PROGRAM read yields zero
programs without a failed-scope record; each program scope is handled by
gatherPrograms. -/
def gatherSummaries (inp : DiscoverInput) : List TagSummary × List String :=
  let c : List TagSummary × List String :=
    match inp.controllerScope with
    | Except.ok l => (l, [])
    | Except.error _ => ([], ["Controller Scope"])
  let progs : List String :=
    match inp.programsList with
    | Except.ok ns => ns
    | Except.error _ => []
  let r := gatherPrograms inp.programScope progs
  (c.1 ++ r.1, c.2 ++ r.2)

/-- The write one iteration of the discovery tool's per-tag loop
(discovery_tool.py lines 175-187) performs: reserved or missing names are
skipped; a successful get_tag_info is parsed; a throw stores the summary
data_type raw (default the string UNKNOWN). -/
def discItemKV (tinfo : String → Except Unit (Option RawType)) (s : TagSummary) :
    Option (String × DiscVal) :=
  match s.tag_name with
  | none => none
  | some name =>
      if reservedTop name then none
      else some (name,
        match tinfo name with
        | Except.ok d => DiscVal.parsed (parseStructureDef d)
        | Except.error _ =>
            DiscVal.rawFallback (s.data_type.getD (RawType.rstr "UNKNOWN")))

/-- One step of the discovery tool's per-tag loop over self.tags. -/
def discStep (tinfo : String → Except Unit (Option RawType))
    (acc : List (String × DiscVal)) (s : TagSummary) : List (String × DiscVal) :=
  match discItemKV tinfo s with
  | none => acc
  | some (k, v) => dictInsert acc k v

/-- The per-tag processing phase of discover_tags over the merged summary
list. -/
def discProcess (tinfo : String → Except Unit (Option RawType))
    (summaries : List TagSummary) : List (String × DiscVal) :=
  summaries.foldl (discStep tinfo) []

/-- Result of one discover_tags run: the tags dict, the failed scopes, and
whether the call succeeded (it returns False exactly when no summary at all
could be retrieved). -/
structure DiscoverOutcome where
  tags : List (String × DiscVal)
  failed_scopes : List String
  ok : Bool

/-- Embeds discover_tags (discovery_tool.py lines 111-193): enumerate the
scopes, fail the whole call only when the merged summary list is empty,
otherwise process every summary. -/
def discover_tags (inp : DiscoverInput) : DiscoverOutcome :=
  let g := gatherSummaries inp
  if g.1.isEmpty then ⟨[], g.2, false⟩
  else ⟨discProcess inp.tagInfo g.1, g.2, true⟩

/-- Replaces the controller-scope outcome of an oracle, used to compare a
run having a failed controller listing with the same run where that scope
merely contributes zero tags. -/
def setController (inp : DiscoverInput) (v : Except Unit (List TagSummary)) :
    DiscoverInput :=
  { inp with controllerScope := v }

/-- Embeds the member-path walk of _find_case_insensitive_tag
(plc_toolkit_consolidated.py lines 476-490): each remaining user segment is
matched case-insensitively against the members of the current node (first
match wins); a leaf with segments remaining fails; the as-stored member
names are collected. -/
def navigateMembers : TagNode → List String → Option (List String)
  | _, [] => some []
  | TagNode.structured _ ms, part :: parts =>
      match ms.find? (fun m => strLower m.1 == strLower part) with
      | none => none
      | some mp =>
          match navigateMembers mp.2 parts with
          | none => none
          | some ps => some (mp.1 :: ps)
  | TagNode.leaf _, _ :: _ => none

/-- Embeds _find_case_insensitive_tag (plc_toolkit_consolidated.py lines
456-498): a dotted input is split into the base segment and the member
segments; the base is matched case-insensitively against the top-level
keys, the member path is walked, and the canonical as-stored names are
joined with dots; a dotless input is matched against the top-level keys
alone. -/
def find_case_insensitive_tag (tags : List (String × TagNode)) (inp : String) :
    Option String :=
  match strSplitDot inp with
  | base :: part :: parts =>
      match tags.find? (fun p => strLower p.1 == strLower base) with
      | none => none
      | some bp =>
          match navigateMembers bp.2 (part :: parts) with
          | none => none
          | some ps => some (strJoinDot (bp.1 :: ps))
  | _ =>
      (tags.find? (fun p => strLower p.1 == strLower inp)).map (fun p => p.1)

/-- A canonical member path into a node: the empty path, or an as-stored
member binding followed by a path into that member. -/
inductive MemberPathP : TagNode → List String → Prop
  | nil (n : TagNode) : MemberPathP n []
  | cons {t : String} {ms : List (String × TagNode)} {mn : String}
      {child : TagNode} {p : List String} :
      (mn, child) ∈ ms → MemberPathP child p →
      MemberPathP (TagNode.structured t ms) (mn :: p)

/-- A canonical path into a tag set: a stored top-level binding followed by
a member path inside it. -/
def TagPathP (tags : List (String × TagNode)) : List String → Prop
  | [] => False
  | base :: rest => ∃ node, (base, node) ∈ tags ∧ MemberPathP node rest

/-- Insertion step of the model of Python sorted() for dict items compared
by key. -/
def insertByKey {α : Type} (x : String × α) :
    List (String × α) → List (String × α)
  | [] => [x]
  | y :: ys => if pyStrLt x.1 y.1 then x :: y :: ys else y :: insertByKey x ys

/-- Models Python sorted(d.items()): stable insertion sort by key under the
code-point string order. -/
def sortByKey {α : Type} : List (String × α) → List (String × α)
  | [] => []
  | x :: xs => insertByKey x (sortByKey xs)

/-- Size bookkeeping for insertByKey, the termination measure of the export
walk below: inserting preserves total size. -/
theorem insertByKey_sizeOf {α : Type} [SizeOf α] (x : String × α) :
    ∀ l : List (String × α), sizeOf (insertByKey x l) = 1 + sizeOf x + sizeOf l
  | [] => by simp [insertByKey]
  | y :: ys => by
      simp only [insertByKey]
      split
      · simp
        try omega
      · simp [insertByKey_sizeOf x ys]
        try omega

/-- Sorting preserves total size, justifying termination of the export walk
that sorts members at each level. -/
theorem sortByKey_sizeOf {α : Type} [SizeOf α] :
    ∀ l : List (String × α), sizeOf (sortByKey l) = sizeOf l
  | [] => rfl
  | x :: xs => by
      simp [sortByKey, insertByKey_sizeOf, sortByKey_sizeOf xs]
      try omega

mutual

/-- Embeds the inner flatten helper of generate_excel_flat (export_tool.py
lines 38-43): a dict with a members entry recurses over its sorted members
extending the dotted suffix; anything else emits one row with an empty
first column, the accumulated dotted path, and the string form of the
value. -/
def flattenRows (parent acc : String) : TagNode → List (String × String × String)
  | TagNode.leaf s => [("", parent ++ acc, s)]
  | TagNode.structured _ ms => flattenList parent acc (sortByKey ms)
termination_by node => sizeOf node
decreasing_by simp_wf; rw [sortByKey_sizeOf]; omega

/-- Iterates flattenRows over a sorted member list, as the loop inside
flatten does. -/
def flattenList (parent acc : String) :
    List (String × TagNode) → List (String × String × String)
  | [] => []
  | (n, sub) :: rest =>
      flattenRows parent (acc ++ "." ++ n) sub ++ flattenList parent acc rest
termination_by l => sizeOf l
decreasing_by
  all_goals simp_wf
  all_goals omega

end

/-- Embeds the top-level row loop of generate_excel_flat (export_tool.py
lines 45-51): tags in sorted order; a structured tag emits a header row
(name, empty path, its type) followed by the flattened rows of its sorted
members; a scalar tag emits the single row (name, name, type). -/
def exportRowsSorted : List (String × TagNode) → List (String × String × String)
  | [] => []
  | (n, TagNode.leaf s) :: rest => (n, n, s) :: exportRowsSorted rest
  | (n, TagNode.structured t ms) :: rest =>
      (n, "", t) :: (flattenList n "" (sortByKey ms) ++ exportRowsSorted rest)

/-- The full row list of the flat export for a tag set. -/
def exportRows (tags : List (String × TagNode)) : List (String × String × String) :=
  exportRowsSorted (sortByKey tags)

mutual

/-- Modelled from the spec for comparison with the export: one pair (full
dotted path, type) per leaf of a node, members taken in sorted order. -/
def specLeafPairs (path : String) : TagNode → List (String × String)
  | TagNode.leaf s => [(path, s)]
  | TagNode.structured _ ms => specPairsList path (sortByKey ms)
termination_by node => sizeOf node
decreasing_by simp_wf; rw [sortByKey_sizeOf]; omega

/-- List companion of specLeafPairs. -/
def specPairsList (path : String) :
    List (String × TagNode) → List (String × String)
  | [] => []
  | (n, sub) :: rest =>
      specLeafPairs (path ++ "." ++ n) sub ++ specPairsList path rest
termination_by l => sizeOf l
decreasing_by
  all_goals simp_wf
  all_goals omega

end

/-- Spec leaf pairs of a whole sorted tag list. -/
def specPairsTop : List (String × TagNode) → List (String × String)
  | [] => []
  | (n, node) :: rest => specLeafPairs n node ++ specPairsTop rest

/-- Modelled from the spec for comparison with the export: the flattened
leaf set of a tag set, one (full dotted path, type) pair per leaf. -/
def specAllLeafPairs (tags : List (String × TagNode)) : List (String × String) :=
  specPairsTop (sortByKey tags)

/-- The structured top-level tags of a list, with their types, in order. -/
def structuredTops : List (String × TagNode) → List (String × String)
  | [] => []
  | (n, TagNode.structured t _) :: rest => (n, t) :: structuredTops rest
  | (_, TagNode.leaf _) :: rest => structuredTops rest

/-- Projection keeping the leaf rows of the export (those with a non-empty
path column) as (path, type) pairs. -/
def leafRowProj (r : String × String × String) : Option (String × String) :=
  if r.2.1 = "" then none else some (r.2.1, r.2.2)

/-- Projection keeping the header rows of the export (those with an empty
path column) as (tag, type) pairs. -/
def headerRowProj (r : String × String × String) : Option (String × String) :=
  if r.2.1 = "" then some (r.1, r.2.2) else none

/-- The monitoring history capacity (deque maxlen in tag_checker_tool.py
line 35, MONITOR_HISTORY_SIZE in plc_toolkit_consolidated.py line 31). -/
def MONITOR_HISTORY_SIZE : Nat := 10

/-- Appending to a Python deque with maxlen: the new element goes to the
right and the leftmost elements are evicted down to the capacity. -/
def dequeAppend {α : Type} (cap : Nat) (q : List α) (x : α) : List α :=
  let q2 := q ++ [x]
  if cap < q2.length then q2.drop (q2.length - cap) else q2

/-- Embeds the monitoring loop of monitor_tag (plc_toolkit_consolidated.py
lines 525-550) and run_continuous_scan (tag_checker_tool.py lines 42-61):
each tick appends exactly one formatted entry to the bounded history —
whether the read succeeded, reported an in-band error, or threw — so after
n ticks the history is the fold of the first n entries.  The entries
function gives the formatted record produced at each tick. -/
def runTicks {α : Type} (cap : Nat) (entries : Nat → α) : Nat → List α
  | 0 => []
  | n + 1 => dequeAppend cap (runTicks cap entries n) (entries n)

/-- One row of the plcs table (toolkit.py lines 98-108): the rowid, the
unique (ip_address, slot) endpoint, and the mutable name, revision and
last_scan columns. -/
structure PlcRow where
  rid : Nat
  ip : String
  slot : Int
  name : Option String
  revision : String
  last_scan : String

/-- The two tables of the SQLite store.  The tags_json column is modelled
by the tag dictionary it encodes. -/
structure DBState where
  plcs : List PlcRow
  tag_data : List (Nat × List (String × TagNode))

/-- The store as created by create_tables on a fresh database file. -/
def dbEmpty : DBState := ⟨[], []⟩

/-- Bool test that a row sits at the given endpoint. -/
def epEq (ip : String) (slot : Int) (r : PlcRow) : Bool :=
  r.ip == ip && r.slot == slot

/-- SQLite rowid allocation for the plcs INTEGER PRIMARY KEY: one more than
the largest existing rowid. -/
def freshId (db : DBState) : Nat :=
  db.plcs.foldl (fun m r => max m r.rid) 0 + 1

/-- Embeds the first statement of update_plc_data (toolkit.py lines
125-132): INSERT into plcs, or on the (ip_address, slot) conflict update
the name, revision and last_scan columns of the existing row. -/
def upsertPlc (db : DBState) (ip : String) (slot : Int) (nm : Option String)
    (rev scan : String) : DBState :=
  if db.plcs.any (epEq ip slot) then
    { db with plcs := db.plcs.map (fun r =>
        if epEq ip slot r then
          { r with name := nm, revision := rev, last_scan := scan }
        else r) }
  else
    { db with plcs := db.plcs ++ [⟨freshId db, ip, slot, nm, rev, scan⟩] }

/-- Embeds the SELECT of update_plc_data (toolkit.py line 134): the id of
the row at the endpoint (guaranteed present right after the upsert). -/
def selectPlcId (db : DBState) (ip : String) (slot : Int) : Nat :=
  match db.plcs.find? (epEq ip slot) with
  | some r => r.rid
  | none => 0

/-- Embeds the second statement of update_plc_data (toolkit.py lines
137-142): INSERT into tag_data, or on the plc_id conflict replace the
stored tag set. -/
def upsertTagData (db : DBState) (pid : Nat) (tags : List (String × TagNode)) :
    DBState :=
  if db.tag_data.any (fun row => row.1 == pid) then
    { db with tag_data := db.tag_data.map (fun row =>
        if row.1 == pid then (pid, tags) else row) }
  else
    { db with tag_data := db.tag_data ++ [(pid, tags)] }

/-- The fields of plc.get_plc_info read by update_plc_data: the plc_name
and the major and minor revision parts (modelled by their string forms as
interpolated into the stored revision text). -/
structure PlcInfo where
  plc_name : Option String
  revision_major : Option String
  revision_minor : Option String

/-- The revision string stored by update_plc_data (toolkit.py line 122),
with a question mark for an absent part. -/
def revStr (i : PlcInfo) : String :=
  i.revision_major.getD "?" ++ "." ++ i.revision_minor.getD "?"

/-- The arguments of one update_plc_data call. -/
structure UpsertArgs where
  ip : String
  slot : Int
  info : PlcInfo
  tags : List (String × TagNode)
  scan : String

/-- The in-memory effect of one update_plc_data call: the plcs upsert, the
id lookup, then the tag_data upsert. -/
def runPending (db : DBState) (a : UpsertArgs) : DBState :=
  let db1 := upsertPlc db a.ip a.slot a.info.plc_name (revStr a.info) a.scan
  upsertTagData db1 (selectPlcId db1 a.ip a.slot) a.tags

/-- The SQLite connection state: the durable store (what a reader of the
database file sees) and the pending uncommitted transaction state.  The
Python connection runs in its default transactional mode, so both writes of
update_plc_data sit in one transaction published by the single
conn.commit() at its end. -/
structure Journal where
  durable : DBState
  pending : DBState

/-- The three statements executed by update_plc_data, in order. -/
inductive UpsertStep where
  | plcStmt | tagStmt | commitStmt

/-- Executes one statement: the two DML statements touch only the pending
transaction state; commit publishes it to the durable store. -/
def applyStep (a : UpsertArgs) (j : Journal) : UpsertStep → Journal
  | UpsertStep.plcStmt =>
      { j with pending :=
          upsertPlc j.pending a.ip a.slot a.info.plc_name (revStr a.info) a.scan }
  | UpsertStep.tagStmt =>
      { j with pending :=
          upsertTagData j.pending (selectPlcId j.pending a.ip a.slot) a.tags }
  | UpsertStep.commitStmt => { j with durable := j.pending }

/-- Embeds update_plc_data (toolkit.py lines 118-145): the plcs upsert, the
tag_data upsert, then the single commit. -/
def update_plc_data (a : UpsertArgs) (j : Journal) : Journal :=
  [UpsertStep.plcStmt, UpsertStep.tagStmt, UpsertStep.commitStmt].foldl
    (applyStep a) j

/-- Store well-formedness: at most one plcs row per endpoint (the UNIQUE
constraint), at most one plcs row per rowid (the primary key), and at most
one tag_data row per plc_id (its primary key). -/
def DBWF (db : DBState) : Prop :=
  (∀ ip slot, db.plcs.countP (epEq ip slot) ≤ 1) ∧
  (∀ pid, db.plcs.countP (fun r => r.rid == pid) ≤ 1) ∧
  (∀ pid, db.tag_data.countP (fun row => row.1 == pid) ≤ 1)

/-- Embeds get_tag_data (plc_toolkit_consolidated.py lines 147-154): the
stored tag set for the id, or the empty dict when no row exists. -/
def get_tag_data (db : DBState) (pid : Nat) : List (String × TagNode) :=
  match db.tag_data.find? (fun row => row.1 == pid) with
  | some row => row.2
  | none => []

theorem dictLookup_dictInsert_self {α : Type} (l : List (String × α)) (k : String)
    (v : α) : dictLookup (dictInsert l k v) k = some v := by
  induction l with
  | nil => simp [dictInsert, dictLookup]
  | cons p rest ih =>
      obtain ⟨k1, v1⟩ := p
      by_cases h : k1 = k
      · simp [dictInsert, h, dictLookup]
      · simp only [dictInsert, if_neg h]
        simpa [dictLookup, List.find?, h] using ih

theorem dictLookup_dictInsert_ne {α : Type} (l : List (String × α)) (k1 k : String)
    (v : α) (h : k1 ≠ k) : dictLookup (dictInsert l k1 v) k = dictLookup l k := by
  induction l with
  | nil => simp [dictInsert, dictLookup, h]
  | cons p rest ih =>
      obtain ⟨k2, v2⟩ := p
      by_cases h2 : k2 = k1
      · simp [dictInsert, h2, dictLookup, List.find?, h]
      · simp only [dictInsert, if_neg h2]
        by_cases h3 : k2 = k
        · simp [dictLookup, List.find?, h3]
        · simpa [dictLookup, List.find?, h3] using ih

theorem tagFold_lookup (items : List (TagSummary × Except Unit (Option RawType))) :
    ∀ (acc : List (String × TagNode)) (k : String),
      dictLookup (items.foldl tagStep acc) k
        = match lastWriteAt items k with
          | some v => some v
          | none => dictLookup acc k := by
  induction items with
  | nil => intro acc k; simp [lastWriteAt]
  | cons it rest ih =>
      intro acc k
      rw [List.foldl_cons, ih]
      cases hw : lastWriteAt rest k with
      | some v => simp [lastWriteAt, hw]
      | none =>
          simp only [lastWriteAt, hw]
          cases hkv : tagItemKV it with
          | none => simp [tagStep, hkv]
          | some p =>
              obtain ⟨k1, v⟩ := p
              by_cases hk : k1 = k
              · subst hk
                simp [tagStep, hkv, dictLookup_dictInsert_self]
              · simp [tagStep, hkv, hk, dictLookup_dictInsert_ne _ _ _ _ hk]

theorem parseTagsLoop_lookup (items : List (TagSummary × Except Unit (Option RawType)))
    (k : String) : dictLookup (parseTagsLoop items) k = lastWriteAt items k := by
  rw [parseTagsLoop, tagFold_lookup]
  cases lastWriteAt items k <;> simp [dictLookup]

theorem lastWriteAt_append (l1 l2 : List (TagSummary × Except Unit (Option RawType)))
    (k : String) :
    lastWriteAt (l1 ++ l2) k
      = match lastWriteAt l2 k with
        | some v => some v
        | none => lastWriteAt l1 k := by
  induction l1 with
  | nil => simp [lastWriteAt]; cases lastWriteAt l2 k <;> simp
  | cons it rest ih =>
      simp only [List.cons_append, lastWriteAt, List.append_eq]
      rw [ih]
      cases lastWriteAt l2 k <;> cases lastWriteAt rest k <;> simp

theorem lastWriteAt_mem (items : List (TagSummary × Except Unit (Option RawType)))
    (k : String) (v : TagNode) (h : lastWriteAt items k = some v) :
    ∃ it ∈ items, tagItemKV it = some (k, v) := by
  induction items with
  | nil => simp [lastWriteAt] at h
  | cons it rest ih =>
      simp only [lastWriteAt] at h
      cases hw : lastWriteAt rest k with
      | some w =>
          rw [hw] at h
          obtain ⟨it2, hmem, hkv⟩ := ih (h ▸ hw)
          exact ⟨it2, List.mem_cons_of_mem _ hmem, hkv⟩
      | none =>
          rw [hw] at h
          cases hkv : tagItemKV it with
          | none => rw [hkv] at h; cases h
          | some p =>
              obtain ⟨k1, w⟩ := p
              rw [hkv] at h
              by_cases hk : k1 = k
              · subst hk
                simp at h
                exact ⟨it, List.mem_cons_self _ _, h ▸ hkv⟩
              · simp [hk] at h

theorem tagItemKV_some (it : TagSummary × Except Unit (Option RawType)) (k : String)
    (v : TagNode) (h : tagItemKV it = some (k, v)) :
    it.1.tag_name = some k ∧ reservedTop k = false ∧
      ((∃ d, it.2 = Except.ok d ∧ v = parseStructureDef d) ∨
        (∃ e, it.2 = Except.error e ∧ v = TagNode.leaf (fallbackTypeName it.1.data_type))) := by
  unfold tagItemKV at h
  cases hn : it.1.tag_name with
  | none => rw [hn] at h; cases h
  | some name =>
      rw [hn] at h
      by_cases hr : reservedTop name
      · simp [hr] at h
      · simp only [hr, if_neg, Bool.false_eq_true, not_false_eq_true, if_false] at h
        cases he : it.2 with
        | ok d =>
            rw [he] at h
            simp at h
            obtain ⟨hk, hv⟩ := h
            subst hk
            exact ⟨rfl, by simpa using hr, Or.inl ⟨d, rfl, hv.symm⟩⟩
        | error e =>
            rw [he] at h
            simp at h
            obtain ⟨hk, hv⟩ := h
            subst hk
            exact ⟨rfl, by simpa using hr, Or.inr ⟨e, rfl, hv.symm⟩⟩

theorem parse_no_dunder : ∀ d : Option RawType,
    TagNode.hasDunderMember (parseStructureDef d) = false := by
  intro d
  refine parseStructureDef.induct
    (fun d => TagNode.hasDunderMember (parseStructureDef d) = false)
    (fun l => hasDunderMemberList (parseMembers l) = false)
    ?_ ?_ ?_ ?_ ?_ ?_ ?_ ?_ ?_ d
  · intro nm m ms ih
    simp [parseStructureDef, TagNode.hasDunderMember, ih]
  · intro nm; simp [parseStructureDef, TagNode.hasDunderMember]
  · intro nm; simp [parseStructureDef, TagNode.hasDunderMember]
  · intro nm; simp [parseStructureDef, TagNode.hasDunderMember]
  · intro s; simp [parseStructureDef, TagNode.hasDunderMember]
  · simp [parseStructureDef, TagNode.hasDunderMember]
  · simp [parseMembers, hasDunderMemberList]
  · intro n md rest hd ih
    simp [parseMembers, hd, ih]
  · intro n md rest hd ihd ihl
    simp only [Bool.not_eq_true] at hd
    simp [parseMembers, hd, hasDunderMemberList, ihd, ihl]

/-- C1 (amended): every top-level key stored by the connect_and_discover
per-tag loop passes the reserved-name filter — it is never empty, never
dunder-prefixed, never System-prefixed — and no member name at any depth of
any stored node starts with a double underscore.  The claim as frozen also
asserted that System-prefixed member names are filtered during recursive
expansion; they are not (the member filter checks only the dunder form),
see the counterexample. -/
theorem resolved_names_filtering
    (items : List (TagSummary × Except Unit (Option RawType))) (k : String)
    (v : TagNode) (h : dictLookup (parseTagsLoop items) k = some v) :
    strStartsWith k "__" = false ∧ strStartsWith k "System:" = false
      ∧ TagNode.hasDunderMember v = false := by
  rw [parseTagsLoop_lookup] at h
  obtain ⟨it, hmem, hkv⟩ := lastWriteAt_mem _ _ _ h
  obtain ⟨hn, hr, hcases⟩ := tagItemKV_some _ _ _ hkv
  simp only [reservedTop, Bool.or_eq_false_iff] at hr
  refine ⟨hr.1.2, hr.2, ?_⟩
  rcases hcases with ⟨d, _, hv⟩ | ⟨e, _, hv⟩
  · rw [hv]; exact parse_no_dunder d
  · rw [hv]; simp [TagNode.hasDunderMember]

theorem resolved_names_filtering_witness :
    strStartsWith "Counter" "__" = false ∧ strStartsWith "Counter" "System:" = false
      ∧ TagNode.hasDunderMember (TagNode.leaf "INT") = false :=
  resolved_names_filtering
    [(⟨some "Counter", none⟩, Except.ok (some (RawType.rstr "INT")))] "Counter"
    (TagNode.leaf "INT")
    (by simp +decide [parseTagsLoop, tagStep, tagItemKV, reservedTop, strStartsWith,
      parseStructureDef, get_type_name, dictInsert, dictLookup])

/-- C1 counterexample: a raw definition with a member named System:Bad is
resolved by the connect_and_discover loop into a TagSet whose tree contains
that member — a name prefixed System: appears at depth one, so member names
are not filtered for the System: form during recursive expansion. -/
theorem reserved_member_counterexample :
    dictLookup (parseTagsLoop [(⟨some "T", none⟩,
        Except.ok (some (RawType.rdict (some "UDT1")
          (some [("System:Bad", some (RawType.rstr "BOOL"))]))))]) "T"
      = some (TagNode.structured "UDT1" [("System:Bad", TagNode.leaf "BOOL")])
    ∧ TagNode.hasReservedMember
        (TagNode.structured "UDT1" [("System:Bad", TagNode.leaf "BOOL")]) = true := by
  constructor
  · simp +decide [parseTagsLoop, tagStep, tagItemKV, reservedTop, strStartsWith,
      parseStructureDef, parseMembers, get_type_name, dictInsert, dictLookup]
  · simp +decide [TagNode.hasReservedMember, hasReservedMemberList, strStartsWith]

theorem parseMembers_eq_nil (l : List (String × Option RawType)) :
    parseMembers l = [] ↔ ∀ p ∈ l, strStartsWith p.1 "__" = true := by
  induction l with
  | nil => simp [parseMembers]
  | cons p rest ih =>
      obtain ⟨n, md⟩ := p
      by_cases h : strStartsWith n "__" <;> simp [parseMembers, h, ih]

/-- C2 (amended): a raw definition whose member collection is absent or
present-but-empty resolves to a Leaf carrying the display name of its type,
and a non-empty member collection yields a Structured node whose members
are the parsed non-dunder members — that members mapping is empty exactly
when every raw member name is dunder-prefixed, so a Structured node with an
empty members mapping does arise for such definitions (see the
counterexample); it never arises otherwise. -/
theorem empty_member_collection_leaf (nm : Option String)
    (l : List (String × Option RawType)) :
    parseStructureDef (some (RawType.rdict nm none))
        = TagNode.leaf (get_type_name (RawType.rdict nm none))
    ∧ parseStructureDef (some (RawType.rdict nm (some [])))
        = TagNode.leaf (get_type_name (RawType.rdict nm (some [])))
    ∧ (l ≠ [] → parseStructureDef (some (RawType.rdict nm (some l)))
        = TagNode.structured (get_type_name (RawType.rdict nm (some l))) (parseMembers l))
    ∧ (parseMembers l = [] ↔ ∀ p ∈ l, strStartsWith p.1 "__" = true) := by
  refine ⟨by simp [parseStructureDef], by simp [parseStructureDef], ?_,
    parseMembers_eq_nil l⟩
  intro hl
  cases l with
  | nil => exact absurd rfl hl
  | cons m ms => simp [parseStructureDef]

theorem empty_member_collection_leaf_witness :
    parseStructureDef (some (RawType.rdict (some "TIMER")
        (some [("PRE", some (RawType.rstr "DINT"))])))
      = TagNode.structured
          (get_type_name (RawType.rdict (some "TIMER")
            (some [("PRE", some (RawType.rstr "DINT"))])))
          (parseMembers [("PRE", some (RawType.rstr "DINT"))]) :=
  (empty_member_collection_leaf (some "TIMER")
    [("PRE", some (RawType.rstr "DINT"))]).2.2.1 (by simp)

/-- C2 counterexample: a raw definition whose member collection is present
and non-empty but consists only of dunder-named members resolves to a
Structured node with an empty members mapping, not to a Leaf. -/
theorem empty_members_counterexample :
    parseStructureDef (some (RawType.rdict (some "UDT_X")
        (some [("__hidden", some (RawType.rstr "INT"))])))
      = TagNode.structured "UDT_X" [] := by
  simp +decide [parseStructureDef, parseMembers, get_type_name, strStartsWith]

/-- C3: when the detailed definition fetch for one tag throws while its
summary carried a shallow type string, the connect_and_discover loop does
not abort: the resolved TagSet maps that name to a Leaf carrying the
summary's shallow type (provided no later iteration writes the same name),
and the entry of every other name is exactly what it would be had the
failing iteration not existed. -/
theorem fallback_leaf_on_tag_info_failure
    (pre post : List (TagSummary × Except Unit (Option RawType)))
    (s : TagSummary) (name ty : String)
    (hname : s.tag_name = some name)
    (hkeep : reservedTop name = false)
    (hty : s.data_type = some (RawType.rstr ty))
    (hlast : lastWriteAt post name = none) :
    dictLookup (parseTagsLoop (pre ++ (s, Except.error ()) :: post)) name
        = some (TagNode.leaf ty)
    ∧ ∀ k, k ≠ name →
        dictLookup (parseTagsLoop (pre ++ (s, Except.error ()) :: post)) k
          = dictLookup (parseTagsLoop (pre ++ post)) k := by
  constructor
  · rw [parseTagsLoop_lookup, lastWriteAt_append]
    simp [lastWriteAt, hlast, tagItemKV, hname, hkeep, fallbackTypeName, hty]
  · intro k hk
    have hk2 : name ≠ k := fun h => hk h.symm
    rw [parseTagsLoop_lookup, parseTagsLoop_lookup, lastWriteAt_append,
      lastWriteAt_append]
    cases hw : lastWriteAt post k <;>
      simp [lastWriteAt, hw, tagItemKV, hname, hkeep, hk2]

theorem fallback_leaf_on_tag_info_failure_witness :
    dictLookup (parseTagsLoop [(⟨some "Motor", some (RawType.rstr "REAL")⟩,
        Except.error ())]) "Motor" = some (TagNode.leaf "REAL") :=
  (fallback_leaf_on_tag_info_failure [] [] ⟨some "Motor", some (RawType.rstr "REAL")⟩
    "Motor" "REAL" rfl (by decide) rfl rfl).1

theorem gatherPrograms_append (f : String → Except Unit (List ProgTag))
    (l1 l2 : List String) :
    gatherPrograms f (l1 ++ l2)
      = ((gatherPrograms f l1).1 ++ (gatherPrograms f l2).1,
         (gatherPrograms f l1).2 ++ (gatherPrograms f l2).2) := by
  induction l1 with
  | nil => simp [gatherPrograms]
  | cons p rest ih =>
      simp only [List.cons_append, gatherPrograms, List.append_eq]
      rw [ih]
      cases f p <;> simp

theorem gatherSummaries_controller_error (inp : DiscoverInput) (e : Unit)
    (he : inp.controllerScope = Except.error e) :
    gatherSummaries inp
      = ((gatherSummaries (setController inp (Except.ok []))).1,
         "Controller Scope" :: (gatherSummaries (setController inp (Except.ok []))).2) := by
  simp [gatherSummaries, setController, he]

theorem discover_failed_scopes_eq (inp : DiscoverInput) :
    (discover_tags inp).failed_scopes = (gatherSummaries inp).2 := by
  simp only [discover_tags]
  split <;> rfl

/-- C4: discovery over the controller scope and the listed program scopes
is resilient per scope — a throwing controller listing only adds the
Controller Scope failure record and changes nothing else about the run; a
throwing program listing contributes zero tags and inserts its failure
record between the surrounding scopes' results; and the discovery call as a
whole fails (returns False, with an empty tags dict) exactly when the
merged summary list over all scopes is empty. -/
theorem discovery_scope_resilience (inp : DiscoverInput) :
    (∀ e : Unit, inp.controllerScope = Except.error e →
        "Controller Scope" ∈ (discover_tags inp).failed_scopes
      ∧ (discover_tags inp).tags = (discover_tags (setController inp (Except.ok []))).tags
      ∧ (discover_tags inp).failed_scopes
          = "Controller Scope" :: (discover_tags (setController inp (Except.ok []))).failed_scopes
      ∧ (discover_tags inp).ok = (discover_tags (setController inp (Except.ok []))).ok)
    ∧ (∀ (ps1 : List String) (p : String) (ps2 : List String) (e : Unit),
        inp.programScope p = Except.error e →
        gatherPrograms inp.programScope (ps1 ++ p :: ps2)
          = ((gatherPrograms inp.programScope ps1).1
              ++ (gatherPrograms inp.programScope ps2).1,
             (gatherPrograms inp.programScope ps1).2
              ++ ("Program:" ++ p) :: (gatherPrograms inp.programScope ps2).2))
    ∧ (∀ (ps1 : List String) (p : String) (ps2 : List String) (e : Unit),
        inp.programsList = Except.ok (ps1 ++ p :: ps2) →
        inp.programScope p = Except.error e →
        ("Program:" ++ p) ∈ (discover_tags inp).failed_scopes)
    ∧ ((discover_tags inp).ok = false ↔ (gatherSummaries inp).1 = [])
    ∧ ((discover_tags inp).ok = false → (discover_tags inp).tags = []) := by
  have hprog : ∀ (ps1 : List String) (p : String) (ps2 : List String) (e : Unit),
      inp.programScope p = Except.error e →
      gatherPrograms inp.programScope (ps1 ++ p :: ps2)
        = ((gatherPrograms inp.programScope ps1).1
            ++ (gatherPrograms inp.programScope ps2).1,
           (gatherPrograms inp.programScope ps1).2
            ++ ("Program:" ++ p) :: (gatherPrograms inp.programScope ps2).2) := by
    intro ps1 p ps2 e hpe
    rw [gatherPrograms_append]
    simp [gatherPrograms, hpe]
  refine ⟨?_, hprog, ?_, ?_, ?_⟩
  · intro e he
    have hg := gatherSummaries_controller_error inp e he
    have htinfo : (setController inp (Except.ok [])).tagInfo = inp.tagInfo := rfl
    refine ⟨?_, ?_, ?_, ?_⟩
    · rw [discover_failed_scopes_eq, hg]
      exact List.mem_cons_self _ _
    · simp only [discover_tags, hg, htinfo]
      by_cases hemp : (gatherSummaries (setController inp (Except.ok []))).1.isEmpty <;>
        simp [hemp]
    · rw [discover_failed_scopes_eq, discover_failed_scopes_eq, hg]
    · simp only [discover_tags, hg]
      by_cases hemp : (gatherSummaries (setController inp (Except.ok []))).1.isEmpty <;>
        simp [hemp]
  · intro ps1 p ps2 e hpl hpe
    rw [discover_failed_scopes_eq]
    have : (gatherSummaries inp).2
        = (match inp.controllerScope with
           | Except.ok _ => ([] : List String)
           | Except.error _ => ["Controller Scope"])
          ++ (gatherPrograms inp.programScope (ps1 ++ p :: ps2)).2 := by
      simp only [gatherSummaries, hpl]
      cases inp.controllerScope <;> rfl
    rw [this, hprog ps1 p ps2 e hpe]
    simp
  · simp only [discover_tags]
    by_cases hemp : (gatherSummaries inp).1.isEmpty
    · simp [hemp, List.isEmpty_iff.mp hemp]
    · simp only [hemp, if_false, Bool.false_eq_true]
      constructor
      · intro h; cases h
      · intro h
        exact absurd (by simp [h] : (gatherSummaries inp).1.isEmpty = true) hemp
  · simp only [discover_tags]
    by_cases hemp : (gatherSummaries inp).1.isEmpty <;> simp [hemp]

theorem discovery_scope_resilience_witness :
    "Controller Scope" ∈ (discover_tags ⟨Except.error (), Except.ok ["Main"],
      fun q => if q = "Main"
        then Except.ok [⟨"Alpha", some (RawType.rstr "DINT")⟩] else Except.ok [],
      fun _ => Except.error ()⟩).failed_scopes :=
  ((discovery_scope_resilience ⟨Except.error (), Except.ok ["Main"],
      fun q => if q = "Main"
        then Except.ok [⟨"Alpha", some (RawType.rstr "DINT")⟩] else Except.ok [],
      fun _ => Except.error ()⟩).1 () rfl).1

theorem strStartsWith_append_self (p r : String) : strStartsWith (p ++ r) p = true := by
  simp only [strStartsWith, String.data_append, List.isPrefixOf_iff_prefix]
  exact List.prefix_append _ _

theorem collectTypes_parse : ∀ (d : Option RawType) (s : String),
    s ∈ TagNode.collectTypes (parseStructureDef d) →
    (∃ t, RawOccurs t d ∧ s = get_type_name t) ∨ s = "Unknown" := by
  intro d
  refine parseStructureDef.induct
    (fun d => ∀ s, s ∈ TagNode.collectTypes (parseStructureDef d) →
      (∃ t, RawOccurs t d ∧ s = get_type_name t) ∨ s = "Unknown")
    (fun l => ∀ s, s ∈ collectTypesList (parseMembers l) →
      ∃ n md, (n, md) ∈ l ∧
        ((∃ t, RawOccurs t md ∧ s = get_type_name t) ∨ s = "Unknown"))
    ?_ ?_ ?_ ?_ ?_ ?_ ?_ ?_ ?_ d
  · intro nm m ms ih s hs
    simp only [parseStructureDef, TagNode.collectTypes, List.mem_cons] at hs
    rcases hs with h | h
    · exact Or.inl ⟨RawType.rdict nm (some (m :: ms)), RawOccurs.here _, h⟩
    · obtain ⟨n, md, hmem, hin⟩ := ih s h
      rcases hin with ⟨t, ht, hst⟩ | hu
      · exact Or.inl ⟨t, RawOccurs.member hmem ht, hst⟩
      · exact Or.inr hu
  · intro nm s hs
    simp only [parseStructureDef, TagNode.collectTypes, List.mem_singleton] at hs
    exact Or.inl ⟨RawType.rdict nm (some []), RawOccurs.here _, hs⟩
  · intro nm s hs
    simp only [parseStructureDef, TagNode.collectTypes, List.mem_singleton] at hs
    exact Or.inl ⟨RawType.rdict nm none, RawOccurs.here _, hs⟩
  · intro nm s hs
    simp only [parseStructureDef, TagNode.collectTypes, List.mem_singleton] at hs
    exact Or.inl ⟨RawType.robj nm, RawOccurs.here _, hs⟩
  · intro a s hs
    simp only [parseStructureDef, TagNode.collectTypes, List.mem_singleton] at hs
    exact Or.inl ⟨RawType.rstr a, RawOccurs.here _, hs⟩
  · intro s hs
    simp only [parseStructureDef, TagNode.collectTypes, List.mem_singleton] at hs
    exact Or.inr hs
  · intro s hs
    simp [parseMembers, collectTypesList] at hs
  · intro n md rest hd ih s hs
    rw [parseMembers, if_pos hd] at hs
    obtain ⟨n2, md2, hmem, hin⟩ := ih s hs
    exact ⟨n2, md2, List.mem_cons_of_mem _ hmem, hin⟩
  · intro n md rest hd ihd ihl s hs
    rw [parseMembers, if_neg hd] at hs
    simp only [collectTypesList, List.mem_append] at hs
    rcases hs with h | h
    · exact ⟨n, md, List.mem_cons_self _ _, ihd s h⟩
    · obtain ⟨n2, md2, hmem, hin⟩ := ihl s h
      exact ⟨n2, md2, List.mem_cons_of_mem _ hmem, hin⟩

/-- C5 (amended): on the successful parse path the normalization is
uniform — every data-type string stored in a resolved node is get_type_name
of a descriptor occurring in the raw definition (or the literal Unknown
default for a missing data_type key).  On the fallback path the display
name of a dict descriptor is not extracted: connect_and_discover stores the
str() brace rendering of the dict, and the discovery tool stores the raw
summary value itself, unnormalized (see the counterexample). -/
theorem type_name_normalization :
    (∀ (d : Option RawType) (s : String),
        s ∈ TagNode.collectTypes (parseStructureDef d) →
        (∃ t, RawOccurs t d ∧ s = get_type_name t) ∨ s = "Unknown")
    ∧ (∀ (nm : Option String) (its : Option (List (String × Option RawType))),
        fallbackTypeName (some (RawType.rdict nm its)) = pyStrDict nm
        ∧ strStartsWith (pyStrDict nm) "\x7b" = true)
    ∧ (∀ (tinfo : String → Except Unit (Option RawType)) (s : TagSummary)
        (name : String), s.tag_name = some name → reservedTop name = false →
        tinfo name = Except.error () →
        discItemKV tinfo s
          = some (name,
              DiscVal.rawFallback (s.data_type.getD (RawType.rstr "UNKNOWN")))) := by
  refine ⟨collectTypes_parse, ?_, ?_⟩
  · intro nm its
    refine ⟨rfl, ?_⟩
    cases nm with
    | some a => exact strStartsWith_append_self _ _
    | none =>
        have h : ("\x7b\x7d" : String) = "\x7b" ++ "\x7d" := by decide
        rw [pyStrDict, h]
        exact strStartsWith_append_self _ _
  · intro tinfo s name hname hkeep htinfo
    simp [discItemKV, hname, hkeep, htinfo]

theorem type_name_normalization_witness :
    discItemKV (fun _ => Except.error ())
        ⟨some "T1", some (RawType.rdict (some "TIMER") none)⟩
      = some ("T1", DiscVal.rawFallback
          ((some (RawType.rdict (some "TIMER") none)).getD (RawType.rstr "UNKNOWN"))) :=
  type_name_normalization.2.2 (fun _ => Except.error ())
    ⟨some "T1", some (RawType.rdict (some "TIMER") none)⟩ "T1" rfl (by decide) rfl

/-- C5 counterexample: when get_tag_info throws for a tag whose summary
data_type is a descriptor dict, the discovery tool stores the raw dict
itself in its tag tree — a protocol-internal descriptor object, not a
display-name string (its display name TIMER is not extracted). -/
theorem descriptor_stored_counterexample :
    (discover_tags ⟨Except.ok [⟨some "T1", some (RawType.rdict (some "TIMER") none)⟩],
        Except.ok [], fun _ => Except.ok [], fun _ => Except.error ()⟩).tags
      = [("T1", DiscVal.rawFallback (RawType.rdict (some "TIMER") none))]
    ∧ DiscVal.isDescriptorObject
        (DiscVal.rawFallback (RawType.rdict (some "TIMER") none)) = true := by
  constructor
  · simp +decide [discover_tags, gatherSummaries, gatherPrograms, discProcess,
      discStep, discItemKV, reservedTop, strStartsWith, dictInsert]
  · rfl


theorem splitDotChars_ne_nil : ∀ l : List Char, splitDotChars l ≠ [] := by
  intro l
  cases l with
  | nil => simp [splitDotChars]
  | cons c rest =>
      simp only [splitDotChars]
      cases h : splitDotChars rest with
      | nil => simp
      | cons h2 t => by_cases hc : c = '.' <;> simp [hc]

theorem splitDotChars_singleton : ∀ (l : List Char) (x : List Char),
    splitDotChars l = [x] → x = l := by
  intro l
  induction l with
  | nil =>
      intro x h
      simp [splitDotChars] at h
      exact h
  | cons c rest ih =>
      intro x h
      simp only [splitDotChars] at h
      cases hr : splitDotChars rest with
      | nil => exact absurd hr (splitDotChars_ne_nil rest)
      | cons h2 t =>
          rw [hr] at h
          by_cases hc : c = '.'
          · simp [hc] at h
          · simp only [if_neg hc, List.cons.injEq] at h
            obtain ⟨hx, ht⟩ := h
            subst ht
            have h2r : h2 = rest := ih h2 hr
            rw [← hx, h2r]

theorem strSplitDot_singleton (s b : String) (h : strSplitDot s = [b]) : b = s := by
  unfold strSplitDot at h
  cases hr : splitDotChars s.data with
  | nil => exact absurd hr (splitDotChars_ne_nil s.data)
  | cons h2 t =>
      rw [hr] at h
      cases t with
      | cons _ _ => simp at h
      | nil =>
          simp only [List.map_cons, List.map_nil, List.cons.injEq] at h
          have h2r : h2 = s.data := splitDotChars_singleton s.data h2 hr
          rw [← h.1, h2r]

theorem navigateMembers_sound : ∀ (parts : List String) (node : TagNode)
    (ps : List String), navigateMembers node parts = some ps →
    MemberPathP node ps ∧ ps.map strLower = parts.map strLower := by
  intro parts
  induction parts with
  | nil =>
      intro node ps h
      cases node with
      | leaf s =>
          simp only [navigateMembers, Option.some.injEq] at h
          subst h
          exact ⟨MemberPathP.nil _, rfl⟩
      | structured t ms =>
          simp only [navigateMembers, Option.some.injEq] at h
          subst h
          exact ⟨MemberPathP.nil _, rfl⟩
  | cons part rest ih =>
      intro node ps h
      cases node with
      | leaf s => simp [navigateMembers] at h
      | structured t ms =>
          simp only [navigateMembers] at h
          split at h
          · cases h
          next mp hf =>
              split at h
              · cases h
              next ps2 hn =>
                  simp only [Option.some.injEq] at h
                  subst h
                  have hmem := List.mem_of_find?_eq_some hf
                  have hpred := List.find?_some hf
                  simp only [beq_iff_eq] at hpred
                  obtain ⟨hp, hl⟩ := ih mp.2 ps2 hn
                  refine ⟨MemberPathP.cons ?_ hp, ?_⟩
                  · exact (Prod.mk.eta (p := mp)) ▸ hmem
                  · simp [hl, hpred]

/-- C6: whenever the case-insensitive resolver returns a path, that path is
the dot-join of a canonical segment list that exists as stored in the tag
tree and matches the user's dotted segments case-insensitively one for one;
consequently, when no stored path matches the input case-insensitively
(some segment has no match, or segments remain at a Leaf), it returns
not-found.  On the claim's example tree, mytag.subfield resolves to
MyTag.SubField, while an unmatched segment and a path continuing past a
Leaf both yield none. -/
theorem case_insensitive_resolution (tags : List (String × TagNode)) (inp : String) :
    (∀ out, find_case_insensitive_tag tags inp = some out →
      ∃ canon, out = strJoinDot canon
        ∧ canon.map strLower = (strSplitDot inp).map strLower
        ∧ TagPathP tags canon)
    ∧ ((¬ ∃ canon, canon.map strLower = (strSplitDot inp).map strLower
          ∧ TagPathP tags canon) →
        find_case_insensitive_tag tags inp = none)
    ∧ find_case_insensitive_tag
        [("MyTag", TagNode.structured "UDT_A" [("SubField", TagNode.leaf "BOOL")])]
        "mytag.subfield" = some "MyTag.SubField"
    ∧ find_case_insensitive_tag
        [("MyTag", TagNode.structured "UDT_A" [("SubField", TagNode.leaf "BOOL")])]
        "mytag.nonexistent" = none
    ∧ find_case_insensitive_tag
        [("MyTag", TagNode.structured "UDT_A" [("SubField", TagNode.leaf "BOOL")])]
        "mytag.subfield.deeper" = none := by
  have sound : ∀ out, find_case_insensitive_tag tags inp = some out →
      ∃ canon, out = strJoinDot canon
        ∧ canon.map strLower = (strSplitDot inp).map strLower
        ∧ TagPathP tags canon := by
    intro out h
    unfold find_case_insensitive_tag at h
    split at h
    next base part parts heq =>
        split at h
        · cases h
        next bp hf =>
            split at h
            · cases h
            next ps hn =>
                simp only [Option.some.injEq] at h
                have hmem := List.mem_of_find?_eq_some hf
                have hpred := List.find?_some hf
                simp only [beq_iff_eq] at hpred
                obtain ⟨hp, hl⟩ := navigateMembers_sound (part :: parts) bp.2 ps hn
                refine ⟨bp.1 :: ps, h.symm, ?_, bp.2, ?_, hp⟩
                · rw [heq]
                  simp [hl, hpred]
                · exact (Prod.mk.eta (p := bp)) ▸ hmem
    next h1 =>
        rw [Option.map_eq_some'] at h
        obtain ⟨p, hfind, hout⟩ := h
        have hmem := List.mem_of_find?_eq_some hfind
        have hpred := List.find?_some hfind
        simp only [beq_iff_eq] at hpred
        have hsingle : strSplitDot inp = [inp] := by
          cases hsp : strSplitDot inp with
          | nil =>
              exfalso
              unfold strSplitDot at hsp
              simp only [List.map_eq_nil_iff] at hsp
              exact splitDotChars_ne_nil inp.data hsp
          | cons b t =>
              cases t with
              | nil =>
                  have hb : b = inp := strSplitDot_singleton inp b hsp
                  rw [hb]
              | cons b2 t2 => exact absurd hsp (by exact fun hh => h1 b b2 t2 hh)
        refine ⟨[p.1], ?_, ?_, p.2, ?_, MemberPathP.nil _⟩
        · rw [← hout]; rfl
        · rw [hsingle]
          simp [hpred]
        · exact (Prod.mk.eta (p := p)) ▸ hmem
  refine ⟨sound, ?_, by decide, by decide, by decide⟩
  intro hne
  cases hfind : find_case_insensitive_tag tags inp with
  | none => rfl
  | some out =>
      obtain ⟨c, _, h2, h3⟩ := sound out hfind
      exact absurd ⟨c, h2, h3⟩ hne

theorem case_insensitive_resolution_witness :
    ∃ canon, "MyTag.SubField" = strJoinDot canon
      ∧ canon.map strLower = (strSplitDot "mytag.subfield").map strLower
      ∧ TagPathP
          [("MyTag", TagNode.structured "UDT_A" [("SubField", TagNode.leaf "BOOL")])]
          canon :=
  (case_insensitive_resolution
    [("MyTag", TagNode.structured "UDT_A" [("SubField", TagNode.leaf "BOOL")])]
    "mytag.subfield").1 "MyTag.SubField" (by decide)

theorem contains_dot_ne_empty (p a n : String) : p ++ (a ++ "." ++ n) ≠ "" := by
  intro h
  have hl := congrArg String.length h
  simp only [String.length_append] at hl
  have hdot : ("." : String).length = 1 := by decide
  have hemp : ("" : String).length = 0 := by decide
  rw [hdot, hemp] at hl
  omega

theorem mem_insertByKey {α : Type} (x y : String × α) :
    ∀ l : List (String × α), x ∈ insertByKey y l ↔ x = y ∨ x ∈ l := by
  intro l
  induction l with
  | nil => simp [insertByKey]
  | cons z zs ih =>
      by_cases h : pyStrLt y.1 z.1 <;> (simp [insertByKey, h, ih]; try tauto)

theorem mem_sortByKey {α : Type} (x : String × α) :
    ∀ l : List (String × α), x ∈ sortByKey l ↔ x ∈ l := by
  intro l
  induction l with
  | nil => simp [sortByKey]
  | cons z zs ih => simp [sortByKey, mem_insertByKey, ih]

theorem flattenList_leafProj : ∀ (parent acc : String) (l : List (String × TagNode)),
    (flattenList parent acc l).filterMap leafRowProj = specPairsList (parent ++ acc) l := by
  intro parent acc l
  refine flattenList.induct parent
    (fun acc node => parent ++ acc ≠ "" →
      (flattenRows parent acc node).filterMap leafRowProj
        = specLeafPairs (parent ++ acc) node)
    (fun acc l =>
      (flattenList parent acc l).filterMap leafRowProj
        = specPairsList (parent ++ acc) l)
    ?_ ?_ ?_ ?_ acc l
  · intro acc s hne
    simp [flattenRows, specLeafPairs, List.filterMap, leafRowProj, hne]
  · intro acc t ms ih _
    simp only [flattenRows, specLeafPairs]
    exact ih
  · intro acc
    simp [flattenList, specPairsList]
  · intro acc n sub rest ih1 ih2
    simp only [flattenList, specPairsList, List.filterMap_append]
    rw [ih1 (contains_dot_ne_empty parent acc n), ih2]
    simp only [String.append_assoc]

theorem flattenRows_leafProj (parent acc : String) (node : TagNode)
    (hne : parent ++ acc ≠ "") :
    (flattenRows parent acc node).filterMap leafRowProj
      = specLeafPairs (parent ++ acc) node := by
  cases node with
  | leaf s => simp [flattenRows, specLeafPairs, List.filterMap, leafRowProj, hne]
  | structured t ms =>
      simpa [flattenRows, specLeafPairs] using
        flattenList_leafProj parent acc (sortByKey ms)

theorem flattenList_headerProj : ∀ (parent acc : String) (l : List (String × TagNode)),
    (flattenList parent acc l).filterMap headerRowProj = [] := by
  intro parent acc l
  refine flattenList.induct parent
    (fun acc node => parent ++ acc ≠ "" →
      (flattenRows parent acc node).filterMap headerRowProj = [])
    (fun acc l =>
      (flattenList parent acc l).filterMap headerRowProj = [])
    ?_ ?_ ?_ ?_ acc l
  · intro acc s hne
    simp [flattenRows, List.filterMap, headerRowProj, hne]
  · intro acc t ms ih _
    simpa only [flattenRows] using ih
  · intro acc
    simp [flattenList]
  · intro acc n sub rest ih1 ih2
    simp only [flattenList, List.filterMap_append]
    rw [ih1 (contains_dot_ne_empty parent acc n), ih2]
    rfl

theorem exportSorted_leafProj : ∀ l : List (String × TagNode), (∀ p ∈ l, p.1 ≠ "") →
    (exportRowsSorted l).filterMap leafRowProj = specPairsTop l := by
  intro l
  induction l with
  | nil => intro _; simp [exportRowsSorted, specPairsTop]
  | cons p rest ih =>
      intro h
      obtain ⟨n, node⟩ := p
      have hn : n ≠ "" := h (n, node) (List.mem_cons_self _ _)
      have hrest : ∀ p ∈ rest, p.1 ≠ "" := fun p hp => h p (List.mem_cons_of_mem _ hp)
      cases node with
      | leaf s =>
          simp only [exportRowsSorted, specPairsTop, specLeafPairs, List.filterMap_cons]
          rw [ih hrest]
          simp [leafRowProj, hn]
      | structured t ms =>
          simp only [exportRowsSorted, specPairsTop, specLeafPairs,
            List.filterMap_cons, List.filterMap_append]
          have hlist := flattenList_leafProj n "" (sortByKey ms)
          rw [String.append_empty] at hlist
          rw [hlist, ih hrest]
          simp [leafRowProj]

theorem exportSorted_headerProj : ∀ l : List (String × TagNode), (∀ p ∈ l, p.1 ≠ "") →
    (exportRowsSorted l).filterMap headerRowProj = structuredTops l := by
  intro l
  induction l with
  | nil => intro _; simp [exportRowsSorted, structuredTops]
  | cons p rest ih =>
      intro h
      obtain ⟨n, node⟩ := p
      have hn : n ≠ "" := h (n, node) (List.mem_cons_self _ _)
      have hrest : ∀ p ∈ rest, p.1 ≠ "" := fun p hp => h p (List.mem_cons_of_mem _ hp)
      cases node with
      | leaf s =>
          simp only [exportRowsSorted, structuredTops, List.filterMap_cons]
          rw [ih hrest]
          simp [headerRowProj, hn]
      | structured t ms =>
          simp only [exportRowsSorted, structuredTops, List.filterMap_cons,
            List.filterMap_append]
          rw [flattenList_headerProj n "" (sortByKey ms), ih hrest]
          simp [headerRowProj]

/-- C7 (amended): in the flat export, the rows with a non-empty path column
correspond exactly, in order, to the leaves of the (recursively sorted) tag
tree — one row per leaf whose path column is the full dotted path and whose
type column is the leaf type — and the rows with an empty path column are
exactly one header row (tag, type) per structured top-level tag.  The first
column of a leaf row under a structured tag is empty rather than the
top-level tag name, so the example TagSet produces a Motor header row and
member rows with empty first columns (in sorted member order) instead of
the three claimed rows. -/
theorem export_flat_rows (tags : List (String × TagNode))
    (h : ∀ p ∈ tags, p.1 ≠ "") :
    (exportRows tags).filterMap leafRowProj = specAllLeafPairs tags
    ∧ (exportRows tags).filterMap headerRowProj = structuredTops (sortByKey tags)
    ∧ exportRows [("Counter", TagNode.leaf "INT"),
        ("Motor", TagNode.structured "MOTOR_UDT"
          [("Speed", TagNode.leaf "REAL"), ("Running", TagNode.leaf "BOOL")])]
      = [("Counter", "Counter", "INT"), ("Motor", "", "MOTOR_UDT"),
         ("", "Motor.Running", "BOOL"), ("", "Motor.Speed", "REAL")] := by
  have hsorted : ∀ p ∈ sortByKey tags, p.1 ≠ "" :=
    fun p hp => h p ((mem_sortByKey p tags).mp hp)
  refine ⟨exportSorted_leafProj (sortByKey tags) hsorted,
    exportSorted_headerProj (sortByKey tags) hsorted, ?_⟩
  simp +decide [exportRows, exportRowsSorted, sortByKey, insertByKey, pyStrLt,
    charListLt, flattenRows, flattenList]

theorem export_flat_rows_witness :
    (exportRows [("Counter", TagNode.leaf "INT"),
        ("Motor", TagNode.structured "MOTOR_UDT"
          [("Speed", TagNode.leaf "REAL"), ("Running", TagNode.leaf "BOOL")])]).filterMap
        leafRowProj
      = specAllLeafPairs [("Counter", TagNode.leaf "INT"),
          ("Motor", TagNode.structured "MOTOR_UDT"
            [("Speed", TagNode.leaf "REAL"), ("Running", TagNode.leaf "BOOL")])] :=
  (export_flat_rows [("Counter", TagNode.leaf "INT"),
      ("Motor", TagNode.structured "MOTOR_UDT"
        [("Speed", TagNode.leaf "REAL"), ("Running", TagNode.leaf "BOOL")])]
    (by decide)).1

/-- C7 counterexample: on the claim's example TagSet the export does not
contain the claimed row (Motor, Motor.Speed, REAL) — the Speed leaf row
carries an empty first column — and the full row list differs from the
claimed three-row list. -/
theorem export_rows_counterexample :
    ("Motor", "Motor.Speed", "REAL") ∉ exportRows [("Counter", TagNode.leaf "INT"),
        ("Motor", TagNode.structured "MOTOR_UDT"
          [("Speed", TagNode.leaf "REAL"), ("Running", TagNode.leaf "BOOL")])]
    ∧ exportRows [("Counter", TagNode.leaf "INT"),
        ("Motor", TagNode.structured "MOTOR_UDT"
          [("Speed", TagNode.leaf "REAL"), ("Running", TagNode.leaf "BOOL")])]
      ≠ [("Counter", "Counter", "INT"), ("Motor", "Motor.Speed", "REAL"),
         ("Motor", "Motor.Running", "BOOL")] := by
  have hrows : exportRows [("Counter", TagNode.leaf "INT"),
      ("Motor", TagNode.structured "MOTOR_UDT"
        [("Speed", TagNode.leaf "REAL"), ("Running", TagNode.leaf "BOOL")])]
      = [("Counter", "Counter", "INT"), ("Motor", "", "MOTOR_UDT"),
         ("", "Motor.Running", "BOOL"), ("", "Motor.Speed", "REAL")] := by
    simp +decide [exportRows, exportRowsSorted, sortByKey, insertByKey, pyStrLt,
      charListLt, flattenRows, flattenList]
  rw [hrows]
  exact ⟨by decide, by decide⟩

theorem runTicks_drop (cap : Nat) (e : Nat → String) :
    ∀ n, runTicks cap e n = ((List.range n).map e).drop (n - cap) := by
  intro n
  induction n with
  | zero => simp [runTicks]
  | succ n ih =>
      rw [runTicks, ih, List.range_succ]
      simp only [List.map_append, List.map_cons, List.map_nil]
      unfold dequeAppend
      have hL : ((List.range n).map e).length = n := by simp
      by_cases hc : cap ≤ n
      · have hd : n - cap ≤ ((List.range n).map e).length := by omega
        have hlen : ((((List.range n).map e).drop (n - cap)) ++ [e n]).length
            = cap + 1 := by
          simp [List.length_drop, hL]
          omega
        rw [if_pos (by rw [hlen]; omega)]
        rw [hlen]
        rw [← List.drop_append_of_le_length hd]
        rw [List.drop_drop]
        congr 1
        omega
      · have h0 : n - cap = 0 := by omega
        have h1 : n + 1 - cap = 0 := by omega
        rw [h0, h1]
        simp only [List.drop_zero]
        rw [if_neg (by simp [hL]; omega)]

/-- C9: the monitoring loop's history after n ticks at the default capacity
of 10 is exactly the last min(n, 10) formatted readings in chronological
order, the oldest having been evicted first; in particular after 12 ticks
it holds exactly the readings of ticks 2 through 11. -/
theorem poller_history_bounded (entries : Nat → String) (n : Nat) :
    runTicks MONITOR_HISTORY_SIZE entries n
      = ((List.range n).map entries).drop (n - MONITOR_HISTORY_SIZE)
    ∧ (runTicks MONITOR_HISTORY_SIZE entries n).length = min n MONITOR_HISTORY_SIZE
    ∧ runTicks MONITOR_HISTORY_SIZE entries 12
      = [entries 2, entries 3, entries 4, entries 5, entries 6, entries 7,
         entries 8, entries 9, entries 10, entries 11] := by
  refine ⟨runTicks_drop _ _ n, ?_, ?_⟩
  · rw [runTicks_drop]
    simp [MONITOR_HISTORY_SIZE]
    omega
  · simp [MONITOR_HISTORY_SIZE, runTicks, dequeAppend]

/-- C10: the repository's tag-data lookup returns the empty mapping for an
id with no stored row — it neither raises nor signals a distinct absent
value — so its result for a never-scanned id coincides with its result for
an id whose stored tag set is empty. -/
theorem get_tag_data_absent (db : DBState) (pid : Nat)
    (h : db.tag_data.find? (fun row => row.1 == pid) = none) :
    get_tag_data db pid = []
    ∧ ∀ db2 : DBState, db2.tag_data.find? (fun row => row.1 == pid) = some (pid, []) →
        get_tag_data db2 pid = get_tag_data db pid := by
  constructor
  · simp [get_tag_data, h]
  · intro db2 h2
    simp [get_tag_data, h, h2]

theorem get_tag_data_absent_witness : get_tag_data dbEmpty 1 = [] :=
  (get_tag_data_absent dbEmpty 1 rfl).1

theorem epEq_iff (ip : String) (slot : Int) (r : PlcRow) :
    epEq ip slot r = true ↔ r.ip = ip ∧ r.slot = slot := by
  simp [epEq]

theorem epEq_update (ip : String) (slot : Int) (nm : Option String)
    (rev scan : String) (r : PlcRow) :
    epEq ip slot { r with name := nm, revision := rev, last_scan := scan }
      = epEq ip slot r := rfl

theorem init_le_foldl_max : ∀ (l : List PlcRow) (a : Nat),
    a ≤ l.foldl (fun m x => max m x.rid) a := by
  intro l
  induction l with
  | nil => intro a; exact le_refl _
  | cons x rest ih =>
      intro a
      exact le_trans (le_max_left a x.rid) (ih (max a x.rid))

theorem le_foldl_max : ∀ (l : List PlcRow) (a : Nat) (r : PlcRow), r ∈ l →
    r.rid ≤ l.foldl (fun m x => max m x.rid) a := by
  intro l
  induction l with
  | nil => intro a r h; cases h
  | cons x rest ih =>
      intro a r h
      rcases List.mem_cons.mp h with h | h
      · subst h
        exact le_trans (le_max_right a r.rid) (init_le_foldl_max rest (max a r.rid))
      · exact ih (max a x.rid) r h

theorem rid_lt_freshId (db : DBState) (r : PlcRow) (h : r ∈ db.plcs) :
    r.rid < freshId db := by
  unfold freshId
  have := le_foldl_max db.plcs 0 r h
  omega

theorem upsertPlc_tag_data (db : DBState) (ip : String) (slot : Int)
    (nm : Option String) (rev scan : String) :
    (upsertPlc db ip slot nm rev scan).tag_data = db.tag_data := by
  unfold upsertPlc
  split <;> rfl

theorem upsertPlc_count (db : DBState) (ip : String) (slot : Int)
    (nm : Option String) (rev scan : String)
    (hwf : db.plcs.countP (epEq ip slot) ≤ 1) :
    (upsertPlc db ip slot nm rev scan).plcs.countP (epEq ip slot) = 1 := by
  unfold upsertPlc
  by_cases hany : db.plcs.any (epEq ip slot) = true
  · simp only [hany, if_true]
    rw [List.countP_map]
    have hfun : (epEq ip slot ∘ fun r => if epEq ip slot r = true then
        { r with name := nm, revision := rev, last_scan := scan } else r)
        = epEq ip slot := by
      funext r
      by_cases h : epEq ip slot r = true <;> simp [h, epEq_update]
    rw [hfun]
    have hpos : 0 < db.plcs.countP (epEq ip slot) :=
      List.countP_pos.mpr (List.any_eq_true.mp hany)
    omega
  · simp only [hany, if_false, Bool.false_eq_true]
    rw [List.countP_append]
    have h0 : db.plcs.countP (epEq ip slot) = 0 := by
      rw [List.countP_eq_zero]
      intro a ha hp
      exact hany (List.any_eq_true.mpr ⟨a, ha, hp⟩)
    have h1 : List.countP (epEq ip slot)
        [({ rid := freshId db, ip := ip, slot := slot, name := nm,
            revision := rev, last_scan := scan } : PlcRow)] = 1 := by
      simp [epEq]
    omega

theorem upsertPlc_fields (db : DBState) (ip : String) (slot : Int)
    (nm : Option String) (rev scan : String) (r : PlcRow)
    (hr : r ∈ (upsertPlc db ip slot nm rev scan).plcs)
    (hep : epEq ip slot r = true) :
    r.name = nm ∧ r.revision = rev ∧ r.last_scan = scan := by
  unfold upsertPlc at hr
  by_cases hany : db.plcs.any (epEq ip slot) = true
  · simp only [hany, if_true] at hr
    obtain ⟨r0, hr0, hfr⟩ := List.mem_map.mp hr
    by_cases h0 : epEq ip slot r0 = true
    · rw [if_pos h0] at hfr
      rw [← hfr]
      exact ⟨rfl, rfl, rfl⟩
    · rw [if_neg h0] at hfr
      rw [← hfr] at hep
      exact absurd hep h0
  · simp only [hany, if_false, Bool.false_eq_true] at hr
    rcases List.mem_append.mp hr with h | h
    · exfalso
      exact hany (List.any_eq_true.mpr ⟨r, h, hep⟩)
    · rw [List.mem_singleton.mp h]
      exact ⟨rfl, rfl, rfl⟩

theorem upsertPlc_filter_other (db : DBState) (ip : String) (slot : Int)
    (nm : Option String) (rev scan : String) (ip2 : String) (slot2 : Int)
    (hne : ¬(ip = ip2 ∧ slot = slot2)) :
    (upsertPlc db ip slot nm rev scan).plcs.filter (epEq ip2 slot2)
      = db.plcs.filter (epEq ip2 slot2) := by
  unfold upsertPlc
  by_cases hany : db.plcs.any (epEq ip slot) = true
  · simp only [hany, if_true]
    induction db.plcs with
    | nil => rfl
    | cons r0 rest ih =>
        simp only [List.map_cons, List.filter_cons]
        by_cases h0 : epEq ip slot r0 = true
        · have h2 : epEq ip2 slot2 r0 = false := by
            rcases Bool.eq_false_or_eq_true (epEq ip2 slot2 r0) with h | h
            · obtain ⟨ha, hb⟩ := (epEq_iff _ _ _).mp h
              obtain ⟨hc, hd⟩ := (epEq_iff _ _ _).mp h0
              exact absurd ⟨hc ▸ ha, hd ▸ hb⟩ hne
            · exact h
          have h3 : epEq ip2 slot2 (if epEq ip slot r0 = true then
              { r0 with name := nm, revision := rev, last_scan := scan } else r0)
              = false := by
            rw [if_pos h0, epEq_update]
            exact h2
          rw [h2, h3]
          simp only [Bool.false_eq_true, if_false]
          exact ih
        · have h3 : (if epEq ip slot r0 = true then
              { r0 with name := nm, revision := rev, last_scan := scan } else r0)
              = r0 := if_neg h0
          rw [h3, ih]
  · simp only [hany, if_false, Bool.false_eq_true]
    rw [List.filter_append]
    have h2 : epEq ip2 slot2 (⟨freshId db, ip, slot, nm, rev, scan⟩ : PlcRow)
        = false := by
      rcases Bool.eq_false_or_eq_true
          (epEq ip2 slot2 (⟨freshId db, ip, slot, nm, rev, scan⟩ : PlcRow)) with h | h
      · have h4 := (epEq_iff ip2 slot2
            (⟨freshId db, ip, slot, nm, rev, scan⟩ : PlcRow)).mp h
        exact absurd ⟨h4.1, h4.2⟩ hne
      · exact h
    simp [h2]

theorem upsertPlc_countP_rid (db : DBState) (ip : String) (slot : Int)
    (nm : Option String) (rev scan : String)
    (hwf : ∀ pid, db.plcs.countP (fun r => r.rid == pid) ≤ 1) :
    ∀ pid, (upsertPlc db ip slot nm rev scan).plcs.countP
      (fun r => r.rid == pid) ≤ 1 := by
  intro pid
  unfold upsertPlc
  by_cases hany : db.plcs.any (epEq ip slot) = true
  · simp only [hany, if_true]
    rw [List.countP_map]
    have hfun : ((fun r : PlcRow => r.rid == pid) ∘ fun r =>
        if epEq ip slot r = true then
          { r with name := nm, revision := rev, last_scan := scan } else r)
        = (fun r : PlcRow => r.rid == pid) := by
      funext r
      by_cases h : epEq ip slot r = true <;> simp [h]
    rw [hfun]
    exact hwf pid
  · simp only [hany, if_false, Bool.false_eq_true]
    rw [List.countP_append]
    by_cases hpid : pid = freshId db
    · have h0 : db.plcs.countP (fun r => r.rid == pid) = 0 := by
        rw [List.countP_eq_zero]
        intro r hr hp
        have := rid_lt_freshId db r hr
        rw [beq_iff_eq] at hp
        omega
      have h1 : List.countP (fun r : PlcRow => r.rid == pid)
          [(⟨freshId db, ip, slot, nm, rev, scan⟩ : PlcRow)] ≤ 1 := by
        by_cases h : freshId db = pid <;> simp [List.countP_cons, h]
      omega
    · have h1 : List.countP (fun r : PlcRow => r.rid == pid)
          [(⟨freshId db, ip, slot, nm, rev, scan⟩ : PlcRow)] = 0 := by
        simp [List.countP_cons]
        exact fun h => absurd h.symm hpid
      have := hwf pid
      omega

theorem upsertPlc_WF (db : DBState) (ip : String) (slot : Int)
    (nm : Option String) (rev scan : String) (hwf : DBWF db) :
    DBWF (upsertPlc db ip slot nm rev scan) := by
  obtain ⟨hep, hrid, htag⟩ := hwf
  refine ⟨?_, upsertPlc_countP_rid db ip slot nm rev scan hrid, ?_⟩
  · intro ip2 slot2
    by_cases he : ip = ip2 ∧ slot = slot2
    · obtain ⟨h1, h2⟩ := he
      subst h1; subst h2
      rw [upsertPlc_count db ip slot nm rev scan (hep ip slot)]
    · rw [List.countP_eq_length_filter, upsertPlc_filter_other db ip slot nm rev scan
        ip2 slot2 he, ← List.countP_eq_length_filter]
      exact hep ip2 slot2
  · intro pid
    rw [upsertPlc_tag_data]
    exact htag pid

theorem upsertTagData_plcs (db : DBState) (pid : Nat)
    (tags : List (String × TagNode)) :
    (upsertTagData db pid tags).plcs = db.plcs := by
  unfold upsertTagData
  split <;> rfl

theorem upsertTagData_count (db : DBState) (pid : Nat)
    (tags : List (String × TagNode))
    (hwf : db.tag_data.countP (fun row => row.1 == pid) ≤ 1) :
    (upsertTagData db pid tags).tag_data.countP (fun row => row.1 == pid) = 1 := by
  unfold upsertTagData
  by_cases hany : db.tag_data.any (fun row => row.1 == pid) = true
  · simp only [hany, if_true]
    rw [List.countP_map]
    have hfun : ((fun row : Nat × List (String × TagNode) => row.1 == pid) ∘
        fun row => if row.1 == pid then (pid, tags) else row)
        = (fun row : Nat × List (String × TagNode) => row.1 == pid) := by
      funext row
      by_cases h : row.1 = pid <;> simp [h]
    rw [hfun]
    have hpos : 0 < db.tag_data.countP (fun row => row.1 == pid) :=
      List.countP_pos.mpr (List.any_eq_true.mp hany)
    omega
  · simp only [hany, if_false, Bool.false_eq_true]
    rw [List.countP_append]
    have h0 : db.tag_data.countP (fun row => row.1 == pid) = 0 := by
      rw [List.countP_eq_zero]
      intro a ha hp
      exact hany (List.any_eq_true.mpr ⟨a, ha, hp⟩)
    simp [List.countP_cons, h0]

theorem upsertTagData_rows (db : DBState) (pid : Nat)
    (tags : List (String × TagNode)) (row : Nat × List (String × TagNode))
    (hrow : row ∈ (upsertTagData db pid tags).tag_data) (hid : row.1 = pid) :
    row.2 = tags := by
  unfold upsertTagData at hrow
  by_cases hany : db.tag_data.any (fun row => row.1 == pid) = true
  · simp only [hany, if_true] at hrow
    obtain ⟨r0, hr0, hfr⟩ := List.mem_map.mp hrow
    by_cases h0 : r0.1 == pid
    · rw [if_pos h0] at hfr
      rw [← hfr]
    · rw [if_neg h0] at hfr
      rw [← hfr] at hid
      exact absurd (beq_iff_eq.mpr hid) h0
  · simp only [hany, if_false, Bool.false_eq_true] at hrow
    rcases List.mem_append.mp hrow with h | h
    · exfalso
      exact hany (List.any_eq_true.mpr ⟨row, h, beq_iff_eq.mpr hid⟩)
    · rw [List.mem_singleton.mp h]

theorem upsertTagData_filter_other (db : DBState) (pid : Nat)
    (tags : List (String × TagNode)) (pid2 : Nat) (hne : pid2 ≠ pid) :
    (upsertTagData db pid tags).tag_data.filter (fun row => row.1 == pid2)
      = db.tag_data.filter (fun row => row.1 == pid2) := by
  unfold upsertTagData
  by_cases hany : db.tag_data.any (fun row => row.1 == pid) = true
  · simp only [hany, if_true]
    induction db.tag_data with
    | nil => rfl
    | cons r0 rest ih =>
        simp only [List.map_cons, List.filter_cons]
        by_cases h0 : r0.1 == pid
        · have hp0 : r0.1 = pid := beq_iff_eq.mp h0
          have h2 : (r0.1 == pid2) = false := by
            rw [beq_eq_false_iff_ne, hp0]
            exact fun hh => hne hh.symm
          rw [if_pos h0]
          have h3 : (((pid, tags) : Nat × List (String × TagNode)).1 == pid2)
              = false := by
            rw [beq_eq_false_iff_ne]
            exact fun hh => hne hh.symm
          rw [h2, h3]
          simp only [Bool.false_eq_true, if_false]
          exact ih
        · rw [if_neg h0, ih]
  · simp only [hany, if_false, Bool.false_eq_true]
    rw [List.filter_append]
    have h3 : (((pid, tags) : Nat × List (String × TagNode)).1 == pid2)
        = false := by
      rw [beq_eq_false_iff_ne]
      exact fun hh => hne hh.symm
    simp [h3]

theorem upsertTagData_WF (db : DBState) (pid : Nat)
    (tags : List (String × TagNode)) (hwf : DBWF db) :
    DBWF (upsertTagData db pid tags) := by
  obtain ⟨hep, hrid, htag⟩ := hwf
  refine ⟨?_, ?_, ?_⟩
  · intro ip2 slot2
    rw [upsertTagData_plcs]
    exact hep ip2 slot2
  · intro pid2
    rw [upsertTagData_plcs]
    exact hrid pid2
  · intro pid2
    by_cases he : pid2 = pid
    · subst he
      rw [upsertTagData_count db pid2 tags (htag pid2)]
    · rw [List.countP_eq_length_filter,
        upsertTagData_filter_other db pid tags pid2 he,
        ← List.countP_eq_length_filter]
      exact htag pid2

theorem countP_one_mem_find? {α : Type} (p : α → Bool) :
    ∀ (l : List α), l.countP p = 1 → ∀ r : α, r ∈ l → p r = true →
      l.find? p = some r := by
  intro l
  induction l with
  | nil => intro _ r hr; cases hr
  | cons x rest ih =>
      intro hc r hr hp
      rw [List.countP_cons] at hc
      by_cases hx : p x = true
      · have hc0 : rest.countP p = 0 := by rw [if_pos hx] at hc; omega
        have hrx : r = x := by
          rcases List.mem_cons.mp hr with h | h
          · exact h
          · exact absurd hp (List.countP_eq_zero.mp hc0 r h)
        rw [List.find?_cons_of_pos _ hx, hrx]
      · have hrr : r ∈ rest := by
          rcases List.mem_cons.mp hr with h | h
          · exact absurd (h ▸ hp) hx
          · exact h
        rw [List.find?_cons_of_neg _ hx]
        exact ih (by rw [if_neg hx] at hc; omega) r hrr hp

theorem countP_le_one_unique {α : Type} (p : α → Bool) :
    ∀ (l : List α), l.countP p ≤ 1 → ∀ r1 r2 : α, r1 ∈ l → r2 ∈ l →
      p r1 = true → p r2 = true → r1 = r2 := by
  intro l
  induction l with
  | nil => intro _ r1 r2 h1; cases h1
  | cons x rest ih =>
      intro hc r1 r2 h1 h2 hp1 hp2
      rw [List.countP_cons] at hc
      by_cases hx : p x = true
      · have hc0 : rest.countP p = 0 := by rw [if_pos hx] at hc; omega
        have e1 : r1 = x := by
          rcases List.mem_cons.mp h1 with h | h
          · exact h
          · exact absurd hp1 (List.countP_eq_zero.mp hc0 r1 h)
        have e2 : r2 = x := by
          rcases List.mem_cons.mp h2 with h | h
          · exact h
          · exact absurd hp2 (List.countP_eq_zero.mp hc0 r2 h)
        rw [e1, e2]
      · have hr1 : r1 ∈ rest := by
          rcases List.mem_cons.mp h1 with h | h
          · exact absurd (h ▸ hp1) hx
          · exact h
        have hr2 : r2 ∈ rest := by
          rcases List.mem_cons.mp h2 with h | h
          · exact absurd (h ▸ hp2) hx
          · exact h
        exact ih (by rw [if_neg hx] at hc; omega) r1 r2 hr1 hr2 hp1 hp2

theorem selectPlcId_eq (db1 : DBState) (ip : String) (slot : Int) (r : PlcRow)
    (hr : r ∈ db1.plcs) (hp : epEq ip slot r = true)
    (hc : db1.plcs.countP (epEq ip slot) = 1) :
    selectPlcId db1 ip slot = r.rid := by
  unfold selectPlcId
  rw [countP_one_mem_find? (epEq ip slot) db1.plcs hc r hr hp]

theorem runPending_plcs (db : DBState) (a : UpsertArgs) :
    (runPending db a).plcs
      = (upsertPlc db a.ip a.slot a.info.plc_name (revStr a.info) a.scan).plcs := by
  simp [runPending, upsertTagData_plcs]

theorem runPending_WF (db : DBState) (a : UpsertArgs) (hwf : DBWF db) :
    DBWF (runPending db a) :=
  upsertTagData_WF _ _ _ (upsertPlc_WF db a.ip a.slot a.info.plc_name
    (revStr a.info) a.scan hwf)

theorem dbEmpty_WF : DBWF dbEmpty := by
  refine ⟨?_, ?_, ?_⟩ <;> intros <;> simp [dbEmpty]

theorem foldl_runPending_WF : ∀ (calls : List UpsertArgs) (db : DBState),
    DBWF db → DBWF (calls.foldl runPending db) := by
  intro calls
  induction calls with
  | nil => intro db hwf; exact hwf
  | cons a rest ih =>
      intro db hwf
      exact ih (runPending db a) (runPending_WF db a hwf)

theorem runPending_match (db0 : DBState) (b : UpsertArgs) (hwf0 : DBWF db0) :
    (runPending db0 b).plcs.countP (epEq b.ip b.slot) = 1
    ∧ ∀ r ∈ (runPending db0 b).plcs, epEq b.ip b.slot r = true →
        r.name = b.info.plc_name ∧ r.revision = revStr b.info ∧ r.last_scan = b.scan
        ∧ (runPending db0 b).tag_data.countP (fun row => row.1 == r.rid) = 1
        ∧ ∀ row ∈ (runPending db0 b).tag_data, row.1 = r.rid → row.2 = b.tags := by
  have hcnt1 : (upsertPlc db0 b.ip b.slot b.info.plc_name (revStr b.info)
      b.scan).plcs.countP (epEq b.ip b.slot) = 1 :=
    upsertPlc_count db0 b.ip b.slot _ _ _ (hwf0.1 b.ip b.slot)
  have hwf1 : DBWF (upsertPlc db0 b.ip b.slot b.info.plc_name (revStr b.info)
      b.scan) := upsertPlc_WF db0 b.ip b.slot _ _ _ hwf0
  constructor
  · rw [runPending_plcs]
    exact hcnt1
  · intro r hr hep
    rw [runPending_plcs] at hr
    obtain ⟨hname, hrev, hscan⟩ := upsertPlc_fields db0 b.ip b.slot _ _ _ r hr hep
    have hpid : selectPlcId (upsertPlc db0 b.ip b.slot b.info.plc_name
        (revStr b.info) b.scan) b.ip b.slot = r.rid :=
      selectPlcId_eq _ b.ip b.slot r hr hep hcnt1
    refine ⟨hname, hrev, hscan, ?_, ?_⟩
    · show (upsertTagData _ _ b.tags).tag_data.countP (fun row => row.1 == r.rid) = 1
      rw [← hpid]
      apply upsertTagData_count
      rw [upsertPlc_tag_data]
      exact hwf0.2.2 _
    · intro row hrow hid
      refine upsertTagData_rows _ _ b.tags row hrow ?_
      rw [hid, hpid]

theorem runPending_nomatch (db0 : DBState) (b : UpsertArgs) (hwf0 : DBWF db0)
    (ip : String) (slot : Int) (hnotb : ¬(b.ip = ip ∧ b.slot = slot)) :
    (runPending db0 b).plcs.filter (epEq ip slot)
        = db0.plcs.filter (epEq ip slot)
    ∧ ∀ r, r ∈ db0.plcs → epEq ip slot r = true →
        (runPending db0 b).tag_data.filter (fun row => row.1 == r.rid)
          = db0.tag_data.filter (fun row => row.1 == r.rid) := by
  have hfilter : (runPending db0 b).plcs.filter (epEq ip slot)
      = db0.plcs.filter (epEq ip slot) := by
    rw [runPending_plcs]
    exact upsertPlc_filter_other db0 b.ip b.slot _ _ _ ip slot hnotb
  refine ⟨hfilter, ?_⟩
  intro r hrdb0 hep
  have hwf1 : DBWF (upsertPlc db0 b.ip b.slot b.info.plc_name (revStr b.info)
      b.scan) := upsertPlc_WF db0 b.ip b.slot _ _ _ hwf0
  have hcnt1 : (upsertPlc db0 b.ip b.slot b.info.plc_name (revStr b.info)
      b.scan).plcs.countP (epEq b.ip b.slot) = 1 :=
    upsertPlc_count db0 b.ip b.slot _ _ _ (hwf0.1 b.ip b.slot)
  obtain ⟨rb, hrb, hprb⟩ := List.countP_pos.mp
    (show 0 < (upsertPlc db0 b.ip b.slot b.info.plc_name (revStr b.info)
      b.scan).plcs.countP (epEq b.ip b.slot) by omega)
  have hpidb : selectPlcId (upsertPlc db0 b.ip b.slot b.info.plc_name
      (revStr b.info) b.scan) b.ip b.slot = rb.rid :=
    selectPlcId_eq _ b.ip b.slot rb hrb hprb hcnt1
  have hr1 : r ∈ (upsertPlc db0 b.ip b.slot b.info.plc_name (revStr b.info)
      b.scan).plcs := by
    have hmem : r ∈ (upsertPlc db0 b.ip b.slot b.info.plc_name (revStr b.info)
        b.scan).plcs.filter (epEq ip slot) := by
      rw [upsertPlc_filter_other db0 b.ip b.slot _ _ _ ip slot hnotb]
      exact List.mem_filter.mpr ⟨hrdb0, hep⟩
    exact (List.mem_filter.mp hmem).1
  have hrb2 : epEq b.ip b.slot r = false := by
    rcases Bool.eq_false_or_eq_true (epEq b.ip b.slot r) with h | h
    · obtain ⟨ha, hb2⟩ := (epEq_iff _ _ _).mp h
      obtain ⟨ha2, hb3⟩ := (epEq_iff _ _ _).mp hep
      exact absurd ⟨ha ▸ ha2, hb2 ▸ hb3⟩ hnotb
    · exact h
  have hrne : rb ≠ r := by
    intro he
    rw [he, hrb2] at hprb
    cases hprb
  have hridne : r.rid ≠ rb.rid := by
    intro he
    exact hrne (countP_le_one_unique (fun x => x.rid == rb.rid) _
      (hwf1.2.1 rb.rid) rb r hrb hr1 (by simp) (beq_iff_eq.mpr he))
  show (upsertTagData _ _ b.tags).tag_data.filter (fun row => row.1 == r.rid)
      = db0.tag_data.filter (fun row => row.1 == r.rid)
  rw [hpidb]
  rw [upsertTagData_filter_other _ rb.rid b.tags r.rid hridne]
  rw [upsertPlc_tag_data]

theorem seq_last_write : ∀ (calls : List UpsertArgs) (ip : String) (slot : Int)
    (c : UpsertArgs),
    (calls.filter (fun x => x.ip == ip && x.slot == slot)).getLast? = some c →
    ((calls.foldl runPending dbEmpty).plcs.countP (epEq ip slot) = 1
    ∧ ∀ r ∈ (calls.foldl runPending dbEmpty).plcs, epEq ip slot r = true →
        r.name = c.info.plc_name ∧ r.revision = revStr c.info
        ∧ r.last_scan = c.scan
        ∧ (calls.foldl runPending dbEmpty).tag_data.countP
            (fun row => row.1 == r.rid) = 1
        ∧ ∀ row ∈ (calls.foldl runPending dbEmpty).tag_data,
            row.1 = r.rid → row.2 = c.tags) := by
  intro calls
  induction calls using List.reverseRecOn with
  | nil => intro ip slot c h; simp at h
  | append_singleton calls b ih =>
      intro ip slot c h
      have hfold : (calls ++ [b]).foldl runPending dbEmpty
          = runPending (calls.foldl runPending dbEmpty) b := by
        rw [List.foldl_append]
        rfl
      have hwf0 : DBWF (calls.foldl runPending dbEmpty) :=
        foldl_runPending_WF calls dbEmpty dbEmpty_WF
      rw [List.filter_append] at h
      by_cases hb : (b.ip == ip && b.slot == slot) = true
      · have hfb : List.filter (fun x => x.ip == ip && x.slot == slot) [b]
            = [b] := by
          simp [List.filter_cons, hb]
        rw [hfb, List.getLast?_concat] at h
        have hcb : c = b := by
          cases h
          rfl
        obtain ⟨hip0, hslot0⟩ := (Bool.and_eq_true _ _).mp hb
        have hip : b.ip = ip := beq_iff_eq.mp hip0
        have hslot : b.slot = slot := beq_iff_eq.mp hslot0
        subst hip
        subst hslot
        subst hcb
        rw [hfold]
        exact runPending_match (calls.foldl runPending dbEmpty) c hwf0
      · have hb2 : (b.ip == ip && b.slot == slot) = false := by
          simpa using hb
        have hfb : List.filter (fun x => x.ip == ip && x.slot == slot) [b]
            = [] := by
          simp [List.filter_cons, hb2]
        rw [hfb, List.append_nil] at h
        obtain ⟨hcnt, hrows⟩ := ih ip slot c h
        have hnotb : ¬(b.ip = ip ∧ b.slot = slot) := by
          rintro ⟨h1, h2⟩
          apply hb
          simp [h1, h2]
        obtain ⟨hfilter, htagfilter⟩ :=
          runPending_nomatch (calls.foldl runPending dbEmpty) b hwf0 ip slot hnotb
        rw [hfold]
        constructor
        · rw [List.countP_eq_length_filter, hfilter,
            ← List.countP_eq_length_filter]
          exact hcnt
        · intro r hr hep
          have hrdb0 : r ∈ (calls.foldl runPending dbEmpty).plcs := by
            have hmem : r ∈ (runPending (calls.foldl runPending dbEmpty)
                b).plcs.filter (epEq ip slot) :=
              List.mem_filter.mpr ⟨hr, hep⟩
            rw [hfilter] at hmem
            exact (List.mem_filter.mp hmem).1
          obtain ⟨hname, hrev, hscan, htagcnt, htagrows⟩ := hrows r hrdb0 hep
          refine ⟨hname, hrev, hscan, ?_, ?_⟩
          · rw [List.countP_eq_length_filter, htagfilter r hrdb0 hep,
              ← List.countP_eq_length_filter]
            exact htagcnt
          · intro row hrow hid
            have hmem : row ∈ (runPending (calls.foldl runPending dbEmpty)
                b).tag_data.filter (fun row => row.1 == r.rid) :=
              List.mem_filter.mpr ⟨hrow, beq_iff_eq.mpr hid⟩
            rw [htagfilter r hrdb0 hep] at hmem
            exact htagrows row (List.mem_filter.mp hmem).1 hid

/-- C8: the two writes of update_plc_data sit in one transaction — running
only the first statement, or the first two without the commit, leaves the
durable store untouched, while the full call publishes both table writes at
once as the in-memory upsert effect; every sequence of upsert calls keeps
the store well formed (at most one plcs row per endpoint and rowid, at most
one tag_data row per id); and after any sequence of calls, the endpoint of
each call that was upserted holds exactly one controller row, carrying the
name, revision and scan time of the most recent call for that endpoint,
with exactly one tag_data row under that row's id holding that same call's
tag set. -/
theorem upsert_atomic_unique :
    (∀ (a : UpsertArgs) (j : Journal),
        (([UpsertStep.plcStmt]).foldl (applyStep a) j).durable = j.durable
      ∧ (([UpsertStep.plcStmt, UpsertStep.tagStmt]).foldl (applyStep a) j).durable
          = j.durable
      ∧ (update_plc_data a j).durable = (update_plc_data a j).pending
      ∧ (update_plc_data a j).durable = runPending j.pending a)
    ∧ (∀ calls : List UpsertArgs, DBWF (calls.foldl runPending dbEmpty))
    ∧ (∀ (calls : List UpsertArgs) (ip : String) (slot : Int) (c : UpsertArgs),
        (calls.filter (fun x => x.ip == ip && x.slot == slot)).getLast? = some c →
        ((calls.foldl runPending dbEmpty).plcs.countP (epEq ip slot) = 1
        ∧ ∀ r ∈ (calls.foldl runPending dbEmpty).plcs, epEq ip slot r = true →
            r.name = c.info.plc_name ∧ r.revision = revStr c.info
            ∧ r.last_scan = c.scan
            ∧ (calls.foldl runPending dbEmpty).tag_data.countP
                (fun row => row.1 == r.rid) = 1
            ∧ ∀ row ∈ (calls.foldl runPending dbEmpty).tag_data,
                row.1 = r.rid → row.2 = c.tags)) := by
  refine ⟨?_, ?_, seq_last_write⟩
  · intro a j
    exact ⟨rfl, rfl, rfl, rfl⟩
  · intro calls
    exact foldl_runPending_WF calls dbEmpty dbEmpty_WF

theorem upsert_atomic_unique_witness :
    (([(⟨"10.0.0.5", 0, ⟨some "PLC1", some "33", some "11"⟩,
        [("Counter", TagNode.leaf "INT")], "2026-10-12"⟩ : UpsertArgs)].foldl
      runPending dbEmpty).plcs.countP (epEq "10.0.0.5" 0) = 1) :=
  (upsert_atomic_unique.2.2
    [⟨"10.0.0.5", 0, ⟨some "PLC1", some "33", some "11"⟩,
      [("Counter", TagNode.leaf "INT")], "2026-10-12"⟩] "10.0.0.5" 0
    ⟨"10.0.0.5", 0, ⟨some "PLC1", some "33", some "11"⟩,
      [("Counter", TagNode.leaf "INT")], "2026-10-12"⟩ rfl).1
